import Mathlib

/-!
Shallow embedding of the bounded byte-message ring buffers (`spscbuf.h`,
`mpscbuf.h`, `mpmcbuf.h`) and the reader-writer spin lock (`rwspinlock.h`)
of the repository, together with proofs settling the specification claims.

Modelling conventions:
* `size_t` cursors and sequence numbers are modelled as `Nat`.  The C++
  cursors are 64-bit and are only ever incremented by 1 per successful
  operation, so no wrap at `2^64` is reachable in the sequentialized runs
  considered here; the `intptr_t` signed difference computed by the
  Vyukov queues is modelled as subtraction in `Int`, which agrees with the
  C++ value for all cursor values below `2^63`.
* Payload arrays (`uint8_t data_[65535]`) are modelled as total functions
  `Nat → Nat`; `std::memcpy(dst, src, len)` overwrites exactly the first
  `len` entries.  An `out` buffer filled by a pop/dequeue is returned as
  the list of bytes actually copied.
* Each operation of the concurrent objects is embedded as the state
  transformer obtained by sequentializing it: every atomic load/CAS/store
  executes without interference, so a `compare_exchange_weak` whose
  expected value matches the current value succeeds.  The `continue`
  branches of the CAS loops (which, run single-threadedly, would spin
  forever on an unchanged state) are modelled by an `Option`-`none` result.
-/

set_option maxHeartbeats 1000000

/-! ### Shared definitions -/

/-- `#define MAX_SLOT_SIZE 65535` (spscbuf.h). -/
def MAX_SLOT_SIZE : Nat := 65535

/-- `#define MAX_NODE_SIZE 65535` (mpscbuf.h / mpmcbuf.h). -/
def MAX_NODE_SIZE : Nat := 65535

/-- Pointwise update of a modelled array at one index. -/
def updFn {α : Type} (f : Nat → α) (i : Nat) (v : α) : Nat → α :=
  fun j => if j = i then v else f j

/-- `std::memcpy(dst, src, len)` on a modelled byte array: the first `len`
bytes come from `src`, everything else keeps its old value. -/
def memcpyBytes (dst src : Nat → Nat) (len : Nat) : Nat → Nat :=
  fun j => if j < len then src j else dst j

/-- The capacity-rounding loop `while (cap < size) cap <<= 1;` shared by the
three constructors (spscbuf.h:53-55, mpscbuf.h:54-55, mpmcbuf.h:62-63), with
`cap` a `size_t`: the shift wraps at `2 ^ 64`.  The loop need not terminate —
for `size > 2 ^ 63` the iterate `cap` walks `1, 2, …, 2 ^ 63`, wraps to `0`
and then stays below `size` forever — so it is modelled with explicit fuel:
`none` means the loop has not exited within `fuel` iterations, and
`∀ fuel, capLoopW size 1 fuel = none` states genuine non-termination. -/
def capLoopW : Nat → Nat → Nat → Option Nat
  | _, _, 0 => none
  | size, cap, fuel + 1 =>
      if cap < size then capLoopW size (cap * 2 % 2 ^ 64) fuel else some cap

/-- Total mathematical auxiliary (not the `size_t` model, which is
`capLoopW`): the value the rounding loop exits with, computed in unbounded
`Nat`.  It agrees with `capLoopW` exactly when no iterate overflows, i.e. for
`size ≤ 2 ^ 63` (`capLoopW_eq_capLoop`). -/
def capLoop (size cap : Nat) (h : 0 < cap) : Nat :=
  if hlt : cap < size then capLoop size (cap * 2) (by omega) else cap
termination_by size - cap
decreasing_by omega

/-- The constructor-time capacity coercion, written identically in all three
headers (inline in the `SPSCBuf`/`MPSCBuf` constructors, and as
`MPMCBuf::adjust_size`), on a `size_t` argument, with the rounding loop given
`fuel` iterations: raise to 2 if below 2, then round a non-power-of-two up to
the next power of two; `none` means the loop has not exited yet. -/
def coerceCapW (n fuel : Nat) : Option Nat :=
  let n := if n < 2 then 2 else n
  if n &&& (n - 1) ≠ 0 then capLoopW n 1 fuel else some n

/-- Total auxiliary for the capacity coercion, built on the unbounded
`capLoop`: the capacity the constructors set whenever their rounding loop
exits.  For requests `≤ 2 ^ 63` it agrees with the `size_t` model
`coerceCapW` (`coerceCapW_eq`); for non-power-of-two requests above `2 ^ 63`
the source loop never exits (`coerceCapW_none`) and this auxiliary has no
program counterpart. -/
def coerceCap (n : Nat) : Nat :=
  let n := if n < 2 then 2 else n
  if n &&& (n - 1) ≠ 0 then capLoop n 1 (by omega) else n

/-- Modelled from the spec: `next_power_of_two r`, the least power of two
that is `≥ r` (equal to 1 for `r ≤ 1`). -/
def next_power_of_two (r : Nat) : Nat := 2 ^ Nat.clog 2 r

/-! ### SPSCBuf (spscbuf.h) — Lamport single-producer/single-consumer queue -/

namespace SPSCBuf

/-- `struct Slot { uint16_t len_; uint8_t data_[MAX_SLOT_SIZE]; }` -/
structure Slot where
  len_ : Nat
  data_ : Nat → Nat

/-- The fields of `class SPSCBuf`: slot array, the two atomic cursors and the
capacity.  In this implementation both cursors are stored already masked
(they always hold values `< size_`). -/
structure State where
  buf_ : Nat → Slot
  head_ : Nat
  tail_ : Nat
  size_ : Nat

/-- `SPSCBuf::SPSCBuf(size_t size)`: coerce the capacity (min 2, next power
of two) and allocate the zero-initialized slot array; `head_ = tail_ = 0`.
The capacity coercion code is the same inline sequence embedded as
`coerceCap`. -/
def init (size : Nat) : State :=
  { buf_ := fun _ => { len_ := 0, data_ := fun _ => 0 }
    head_ := 0
    tail_ := 0
    size_ := coerceCap size }

/-- `SPSCBuf::push(const uint8_t* data, size_t len)` (spscbuf.h:61-70).
Returns the `int32_t` result together with the successor state. -/
def push (s : State) (data : Nat → Nat) (len : Nat) : Int × State :=
  let len := if len > MAX_SLOT_SIZE then MAX_SLOT_SIZE else len
  let head := s.head_
  let next := (head + 1) &&& (s.size_ - 1)
  if next = s.tail_ then (-1, s)   -- full
  else
    let slot := s.buf_ head
    let slot' : Slot := { len_ := len % 65536   -- static_cast<uint16_t>(len)
                          data_ := memcpyBytes slot.data_ data len }
    ((len : Int), { s with buf_ := updFn s.buf_ head slot', head_ := next })

/-- `SPSCBuf::pop(uint8_t* out, size_t len)` (spscbuf.h:71-78).  Returns the
`int32_t` result, the successor state and the bytes copied into `out`. -/
def pop (s : State) (len : Nat) : Int × State × List Nat :=
  let tail := s.tail_
  if tail = s.head_ then (-1, s, [])   -- empty
  else
    let len := if len > (s.buf_ tail).len_ then (s.buf_ tail).len_ else len
    let out := (List.range len).map (s.buf_ tail).data_
    ((len : Int), { s with tail_ := (tail + 1) &&& (s.size_ - 1) }, out)

/-- Well-formedness maintained by every operation: the capacity is a power
of two `≥ 2`, both (masked) cursors lie below it, and every stored length
fits `MAX_SLOT_SIZE`. -/
def WF (s : State) : Prop :=
  (∃ k, 1 ≤ k ∧ s.size_ = 2 ^ k) ∧
  s.head_ < s.size_ ∧ s.tail_ < s.size_ ∧
  ∀ i, (s.buf_ i).len_ ≤ MAX_SLOT_SIZE

/-- Number of messages currently queued (`%`-free form). -/
def count (s : State) : Nat :=
  if s.tail_ ≤ s.head_ then s.head_ - s.tail_ else s.head_ + s.size_ - s.tail_

/-- The queue is empty exactly when the cursors coincide. -/
def isEmpty (s : State) : Prop := count s = 0

/-- The queue is full when `size_ - 1` messages are outstanding. -/
def isFull (s : State) : Prop := count s = s.size_ - 1

/-- The message stored in a slot: its first `len_` payload bytes. -/
def slotMsg (sl : Slot) : List Nat := (List.range sl.len_).map sl.data_

/-- Abstraction: the queued messages, oldest first. -/
def absQ (s : State) : List (List Nat) :=
  (List.range (count s)).map (fun i => slotMsg (s.buf_ ((s.tail_ + i) % s.size_)))

/-- A single-threaded operation on the queue: a `push` of a message or a
`pop` into a `MAX_SLOT_SIZE`-byte caller buffer. -/
inductive Op where
  | push (data : Nat → Nat) (len : Nat)
  | pop

/-- Execute a sequence of operations.  Returns the final state, the list of
pop outputs in order, and whether every operation succeeded (i.e. no call
returned the `-1` sentinel). -/
def run (s : State) : List Op → State × List (List Nat) × Bool
  | [] => (s, [], true)
  | Op.push d l :: ops =>
      let r := push s d l
      let rest := run r.2 ops
      (rest.1, rest.2.1, (decide (r.1 ≠ -1)) && rest.2.2)
  | Op.pop :: ops =>
      let r := pop s MAX_SLOT_SIZE
      let rest := run r.2.1 ops
      (rest.1, r.2.2 :: rest.2.1, (decide (r.1 ≠ -1)) && rest.2.2)

/-- The messages submitted by the pushes of an operation sequence, after
the queue's truncation policy, in order. -/
def pushedMsgs : List Op → List (List Nat)
  | [] => []
  | Op.push d l :: ops => ((List.range (min l 65535)).map d) :: pushedMsgs ops
  | Op.pop :: ops => pushedMsgs ops

def numPushes : List Op → Nat
  | [] => 0
  | Op.push _ _ :: ops => numPushes ops + 1
  | Op.pop :: ops => numPushes ops

def numPops : List Op → Nat
  | [] => 0
  | Op.push _ _ :: ops => numPops ops
  | Op.pop :: ops => numPops ops + 1

/-- Push the given messages one after the other (no intervening pops),
counting the successful pushes before the first `-1` sentinel. -/
def fillCount (s : State) : List ((Nat → Nat) × Nat) → Nat
  | [] => 0
  | (d, l) :: rest =>
      let r := push s d l
      if r.1 = -1 then 0 else fillCount r.2 rest + 1

end SPSCBuf

/-! ### MPSCBuf (mpscbuf.h) — Vyukov-style multi-producer/single-consumer -/

namespace MPSCBuf

/-- `struct Node { std::atomic<size_t> seq; uint16_t len_;
uint8_t data_[MAX_NODE_SIZE]; }` (identical in mpscbuf.h and mpmcbuf.h). -/
structure Node where
  seq : Nat
  len_ : Nat
  data_ : Nat → Nat

/-- The fields of `class MPSCBuf`. -/
structure State where
  size_ : Nat
  buf_ : Nat → Node
  head_ : Nat
  tail_ : Nat

/-- `MPSCBuf::MPSCBuf(size_t size)` (mpscbuf.h:49-62): coerce the capacity,
zero-allocate the node array, then `buf_[i].seq = i` for `i < size_`. -/
def init (size : Nat) : State :=
  let sz := coerceCap size
  { size_ := sz
    buf_ := fun i => { seq := if i < sz then i else 0, len_ := 0, data_ := fun _ => 0 }
    head_ := 0
    tail_ := 0 }

/-- `MPSCBuf::enqueue(const uint8_t* data, size_t len)` (mpscbuf.h:65-100),
sequentialized: one iteration of the claim loop, where the `tail_` CAS
succeeds because no other producer interferes.  `none` is the `diff > 0`
branch, on which a single-threaded run would spin forever. -/
def enqueue (s : State) (data : Nat → Nat) (len : Nat) : Option (Int × State) :=
  let len := if len > MAX_NODE_SIZE then MAX_NODE_SIZE else len
  let t := s.tail_
  let idx := t &&& (s.size_ - 1)
  let slot := s.buf_ idx
  let diff : Int := (slot.seq : Int) - (t : Int)
  if diff = 0 then
    some ((len : Int),
      { s with
          tail_ := t + 1
          buf_ := updFn s.buf_ idx
            { seq := t + 1
              len_ := len % 65536   -- static_cast<uint16_t>(len)
              data_ := memcpyBytes slot.data_ data len } })
  else if diff < 0 then some (-1, s)   -- full
  else none

/-- `MPSCBuf::dequeue(uint8_t* out, size_t len)` (mpscbuf.h:103-119): the
single consumer needs no CAS and no loop. -/
def dequeue (s : State) (len : Nat) : Int × State × List Nat :=
  let h := s.head_
  let idx := h &&& (s.size_ - 1)
  let slot := s.buf_ idx
  let diff : Int := (slot.seq : Int) - ((h : Int) + 1)
  if diff < 0 then (-1, s, [])   -- empty
  else
    let len := if len > slot.len_ then slot.len_ else len
    let out := (List.range len).map slot.data_
    ((len : Int),
     { s with
         buf_ := updFn s.buf_ idx { slot with seq := h + s.size_ }
         head_ := h + 1 },
     out)

/-- The capacity is a power of two `≥ 2`. -/
def WF (s : State) : Prop := ∃ k, 1 ≤ k ∧ s.size_ = 2 ^ k

/-- The Vyukov sequence invariant for sequentialized runs: the cursors are
within one lap of each other, slots holding the raw positions
`head_ ≤ j < tail_` are published (`seq = j+1`), slots for the upcoming
positions `tail_ ≤ j < head_ + size_` are primed for their producer
(`seq = j`), and stored lengths fit the payload bound. -/
def Inv (s : State) : Prop :=
  s.head_ ≤ s.tail_ ∧ s.tail_ ≤ s.head_ + s.size_ ∧
  (∀ j, s.head_ ≤ j → j < s.tail_ → (s.buf_ (j % s.size_)).seq = j + 1) ∧
  (∀ j, s.tail_ ≤ j → j < s.head_ + s.size_ → (s.buf_ (j % s.size_)).seq = j) ∧
  (∀ i, (s.buf_ i).len_ ≤ MAX_NODE_SIZE)

/-- `size_` outstanding messages. -/
def isFull (s : State) : Prop := s.tail_ = s.head_ + s.size_

def isEmpty (s : State) : Prop := s.tail_ = s.head_

/-- States reachable from a fresh queue by sequentialized operations. -/
inductive Reachable : State → Prop where
  | init (n : Nat) : Reachable (init n)
  | enq (s : State) (data : Nat → Nat) (len : Nat) (r : Int) (s' : State) :
      Reachable s → enqueue s data len = some (r, s') → Reachable s'
  | deq (s : State) (len : Nat) (r : Int) (s' : State) (out : List Nat) :
      Reachable s → dequeue s len = (r, s', out) → Reachable s'

/-- Successor-state projection of `enqueue` (the input state if the call
spins or fails). -/
def enqSt (s : State) (data : Nat → Nat) (len : Nat) : State :=
  ((enqueue s data len).getD (-1, s)).2

/-- Enqueue the given messages one after the other (no intervening
dequeues), counting the successful enqueues before the first `-1`. -/
def fillCount (s : State) : List ((Nat → Nat) × Nat) → Nat
  | [] => 0
  | (d, l) :: rest =>
      match enqueue s d l with
      | some (r, s') => if r = -1 then 0 else fillCount s' rest + 1
      | none => 0

end MPSCBuf

/-! ### MPMCBuf (mpmcbuf.h) — Vyukov bounded multi-producer/multi-consumer -/

namespace MPMCBuf

/-- `struct Node` of mpmcbuf.h (textually identical to the one in
mpscbuf.h). -/
structure Node where
  seq : Nat
  len_ : Nat
  data_ : Nat → Nat

/-- The fields of `class MPMCBuf`. -/
structure State where
  size_ : Nat
  buf_ : Nat → Node
  head_ : Nat
  tail_ : Nat

/-- `MPMCBuf::adjust_size(size_t n)` (mpmcbuf.h:59-67) on a `size_t`
argument, with the rounding loop given `fuel` iterations (`none` = the loop
has not exited yet; `∀ fuel, … = none` = the call never returns). -/
def adjust_sizeW (n fuel : Nat) : Option Nat :=
  let n := if n < 2 then 2 else n
  if n &&& (n - 1) ≠ 0 then capLoopW n 1 fuel else some n

/-- Total auxiliary for `adjust_size`, built on the unbounded `capLoop` (see
`coerceCap`): the value returned whenever the rounding loop exits. -/
def adjust_size (n : Nat) : Nat :=
  let n := if n < 2 then 2 else n
  if n &&& (n - 1) ≠ 0 then capLoop n 1 (by omega) else n

/-- `MPMCBuf::MPMCBuf(size_t size)` (mpmcbuf.h:48-56). -/
def init (size : Nat) : State :=
  let sz := adjust_size size
  { size_ := sz
    buf_ := fun i => { seq := if i < sz then i else 0, len_ := 0, data_ := fun _ => 0 }
    head_ := 0
    tail_ := 0 }

/-- `MPMCBuf::enqueue(const uint8_t* data, size_t len)` (mpmcbuf.h:71-103),
sequentialized exactly like `MPSCBuf.enqueue`. -/
def enqueue (s : State) (data : Nat → Nat) (len : Nat) : Option (Int × State) :=
  let len := if len > MAX_NODE_SIZE then MAX_NODE_SIZE else len
  let t := s.tail_
  let idx := t &&& (s.size_ - 1)
  let slot := s.buf_ idx
  let diff : Int := (slot.seq : Int) - (t : Int)
  if diff = 0 then
    some ((len : Int),
      { s with
          tail_ := t + 1
          buf_ := updFn s.buf_ idx
            { seq := t + 1
              len_ := len % 65536
              data_ := memcpyBytes slot.data_ data len } })
  else if diff < 0 then some (-1, s)   -- full
  else none

/-- `MPMCBuf::dequeue(uint8_t* out, size_t len)` (mpmcbuf.h:106-136),
sequentialized: one iteration of the consumer claim loop where the `head_`
CAS succeeds; `none` is the contended `diff > 0` branch. -/
def dequeue (s : State) (len : Nat) : Option (Int × State × List Nat) :=
  let h := s.head_
  let idx := h &&& (s.size_ - 1)
  let slot := s.buf_ idx
  let diff : Int := (slot.seq : Int) - ((h : Int) + 1)
  if diff = 0 then
    let len := if len > slot.len_ then slot.len_ else len
    let out := (List.range len).map slot.data_
    some ((len : Int),
      { s with
          head_ := h + 1
          buf_ := updFn s.buf_ idx { slot with seq := h + s.size_ } },
      out)
  else if diff < 0 then some (-1, s, [])   -- empty
  else none

def WF (s : State) : Prop := ∃ k, 1 ≤ k ∧ s.size_ = 2 ^ k

/-- Vyukov sequence invariant (same shape as `MPSCBuf.Inv`). -/
def Inv (s : State) : Prop :=
  s.head_ ≤ s.tail_ ∧ s.tail_ ≤ s.head_ + s.size_ ∧
  (∀ j, s.head_ ≤ j → j < s.tail_ → (s.buf_ (j % s.size_)).seq = j + 1) ∧
  (∀ j, s.tail_ ≤ j → j < s.head_ + s.size_ → (s.buf_ (j % s.size_)).seq = j) ∧
  (∀ i, (s.buf_ i).len_ ≤ MAX_NODE_SIZE)

def isFull (s : State) : Prop := s.tail_ = s.head_ + s.size_

def isEmpty (s : State) : Prop := s.tail_ = s.head_

inductive Reachable : State → Prop where
  | init (n : Nat) : Reachable (init n)
  | enq (s : State) (data : Nat → Nat) (len : Nat) (r : Int) (s' : State) :
      Reachable s → enqueue s data len = some (r, s') → Reachable s'
  | deq (s : State) (len : Nat) (r : Int) (s' : State) (out : List Nat) :
      Reachable s → dequeue s len = some (r, s', out) → Reachable s'

def enqSt (s : State) (data : Nat → Nat) (len : Nat) : State :=
  ((enqueue s data len).getD (-1, s)).2

def deqSt (s : State) (len : Nat) : State :=
  ((dequeue s len).getD (-1, s, [])).2.1

def deqOut (s : State) (len : Nat) : List Nat :=
  ((dequeue s len).getD (-1, s, [])).2.2

def fillCount (s : State) : List ((Nat → Nat) × Nat) → Nat
  | [] => 0
  | (d, l) :: rest =>
      match enqueue s d l with
      | some (r, s') => if r = -1 then 0 else fillCount s' rest + 1
      | none => 0

end MPMCBuf

/-- Field-for-field correspondence between the (structurally identical)
node types of mpscbuf.h and mpmcbuf.h. -/
def MPSCBuf.Node.toMPMC (nd : MPSCBuf.Node) : MPMCBuf.Node :=
  { seq := nd.seq, len_ := nd.len_, data_ := nd.data_ }

/-- Field-for-field correspondence between the (structurally identical)
states of `MPSCBuf` and `MPMCBuf`. -/
def MPSCBuf.State.toMPMC (s : MPSCBuf.State) : MPMCBuf.State :=
  { size_ := s.size_
    buf_ := fun i => (s.buf_ i).toMPMC
    head_ := s.head_
    tail_ := s.tail_ }

/-- Inverse of `MPSCBuf.Node.toMPMC`. -/
def MPMCBuf.Node.toMPSC (nd : MPMCBuf.Node) : MPSCBuf.Node :=
  { seq := nd.seq, len_ := nd.len_, data_ := nd.data_ }

/-- Inverse of `MPSCBuf.State.toMPMC`. -/
def MPMCBuf.State.toMPSC (s : MPMCBuf.State) : MPSCBuf.State :=
  { size_ := s.size_
    buf_ := fun i => (s.buf_ i).toMPSC
    head_ := s.head_
    tail_ := s.tail_ }

/-! ### RWSpinLock (rwspinlock.h) -/

namespace RWSpinLock

/-- `#define WRITER_BIT (1u << 31)` -/
def WRITER_BIT : Nat := 2 ^ 31

/-- `#define READER_INC 1u` -/
def READER_INC : Nat := 1

/-- Abstract state of the lock's transition system: how many threads hold a
shared (reader) lock and whether the writer bit is set.  The packed
`std::atomic<uint32_t> state_` word is recovered by `word`. -/
structure LockState where
  readers : Nat
  writer : Bool

/-- The packed 32-bit word: bit 31 is the writer flag, bits 0-30 count the
readers. -/
def word (s : LockState) : Nat :=
  (if s.writer then WRITER_BIT else 0) + s.readers * READER_INC

/-- Number of active readers encoded in a `state_` word (bits 0-30). -/
def readerCount (w : Nat) : Nat := w &&& (WRITER_BIT - 1)

/-- Writer flag of a `state_` word (bit 31). -/
def writerFlag (w : Nat) : Prop := w &&& WRITER_BIT ≠ 0

/-- The exit test of `lock()`'s phase-2 drain loop:
`state_.load(acquire) == WRITER_BIT` (rwspinlock.h:84). -/
def drainDone (w : Nat) : Prop := w = WRITER_BIT

/-- One successful atomic step of the lock protocol
(rwspinlock.h:51-92).  Each constructor is the successful execution of one
atomic read-modify-write of `state_`; the guard is the condition under
which the C++ operation succeeds, plus the caller discipline (unlocks are
performed only by lock holders, and at most `2^31 - 1` readers coexist, the
documented capacity of the 31-bit reader field):
* `lock_shared`: the CAS `state_: old → old + READER_INC` succeeds only if
  the current word equals `old`, which was checked to have the writer bit
  clear;
* `unlock_shared`: `state_.fetch_sub(READER_INC)`;
* `lock_acquire`: phase 1 of `lock()`, the CAS `state_: 0 → WRITER_BIT`,
  which succeeds only if the whole word is `0`;
* `unlock`: `state_.store(0)`. -/
inductive Step : LockState → LockState → Prop where
  | lock_shared {s : LockState} :
      word s &&& WRITER_BIT = 0 →
      s.readers + 1 < 2 ^ 31 →
      Step s { s with readers := s.readers + 1 }
  | unlock_shared {s : LockState} :
      0 < s.readers →
      Step s { s with readers := s.readers - 1 }
  | lock_acquire {s : LockState} :
      word s = 0 →
      Step s { s with writer := true }
  | unlock {s : LockState} :
      s.writer = true →
      Step s { readers := 0, writer := false }

/-- States reachable from the freshly constructed lock (`state_ = 0`). -/
inductive Reachable : LockState → Prop where
  | init : Reachable { readers := 0, writer := false }
  | step {s s' : LockState} : Reachable s → Step s s' → Reachable s'

end RWSpinLock

/-! ### Theorems: shared helpers -/

theorem updFn_same {α : Type} (f : Nat → α) (i : Nat) (v : α) :
    updFn f i v i = v := by
  simp [updFn]

theorem updFn_other {α : Type} (f : Nat → α) (i j : Nat) (v : α) (h : j ≠ i) :
    updFn f i v j = f j := by
  simp [updFn, h]

/-- `capLoop` starting from a power of two strictly below `size` computes the
least power of two `≥ size`. -/
theorem capLoop_eq_clog (size j : Nat) (hj : 2 ^ j < size) (hp : 0 < 2 ^ j) :
    capLoop size (2 ^ j) hp = 2 ^ Nat.clog 2 size := by
  have hpow : (2:Nat) ^ j * 2 = 2 ^ (j + 1) := by
    rw [Nat.pow_succ]
  rw [capLoop]
  simp only [hj, dif_pos]
  by_cases h2 : 2 ^ (j + 1) < size
  · have : capLoop size (2 ^ j * 2) (by omega) = capLoop size (2 ^ (j+1)) (by positivity) := by
      congr 1
    rw [this]
    exact capLoop_eq_clog size (j + 1) h2 (by positivity)
  · -- the doubled capacity already reaches `size`
    push_neg at h2
    have hclog : Nat.clog 2 size = j + 1 := by
      have h1 : Nat.clog 2 size ≤ j + 1 :=
        (Nat.le_pow_iff_clog_le (by norm_num)).mp h2
      have h2' : j < Nat.clog 2 size :=
        (Nat.pow_lt_iff_lt_clog (by norm_num)).mp hj
      omega
    rw [capLoop]
    have hnot : ¬ (2 ^ j * 2 < size) := by
      rw [hpow]; omega
    simp only [hnot, dif_neg, not_false_iff]
    rw [hpow, hclog]
termination_by size - 2 ^ j
decreasing_by
  have : (2:Nat) ^ j < 2 ^ (j + 1) := by
    have := Nat.pow_lt_pow_right (a := 2) (by norm_num) (Nat.lt_succ_self j)
    omega
  omega

/-- A number `n ≥ 2` with `n &&& (n-1) = 0` is the power of two `2 ^ log2 n`. -/
theorem eq_pow_of_and_pred_eq_zero {n : Nat} (h2 : 2 ≤ n)
    (h : n &&& (n - 1) = 0) : n = 2 ^ Nat.log 2 n := by
  set k := Nat.log 2 n with hk
  have hk1 : 2 ^ k ≤ n := Nat.pow_log_le_self 2 (by omega)
  have hk2 : n < 2 ^ (k + 1) := Nat.lt_pow_succ_log_self (by norm_num) n
  by_contra hne
  have hgt : 2 ^ k < n := lt_of_le_of_ne hk1 (fun he => hne he.symm)
  have hb1 : n.testBit k = true := by
    rw [Nat.testBit_to_div_mod]
    have : n / 2 ^ k = 1 := by
      apply Nat.div_eq_of_lt_le
      · omega
      · have : (1 + 1) * 2 ^ k = 2 ^ (k + 1) := by ring
        omega
    simp [this]
  have hb2 : (n - 1).testBit k = true := by
    rw [Nat.testBit_to_div_mod]
    have : (n - 1) / 2 ^ k = 1 := by
      apply Nat.div_eq_of_lt_le
      · omega
      · have : (1 + 1) * 2 ^ k = 2 ^ (k + 1) := by ring
        omega
    simp [this]
  have : (n &&& (n - 1)).testBit k = true := by
    rw [Nat.testBit_land, hb1, hb2]
    rfl
  rw [h] at this
  simp at this

/-- The constructors' capacity coercion computes `max 2 (next_power_of_two r)`. -/
theorem coerceCap_eq (r : Nat) :
    coerceCap r = max 2 (next_power_of_two r) := by
  unfold coerceCap next_power_of_two
  by_cases hlt : r < 2
  · have hr : Nat.clog 2 r = 0 := Nat.clog_of_right_le_one (by omega) 2
    simp [hlt, hr]
  · push_neg at hlt
    simp only [if_neg (by omega : ¬ r < 2)]
    by_cases hand : r &&& (r - 1) ≠ 0
    · rw [if_pos hand]
      have h1 : (2:Nat) ^ 0 < r := by
        rcases Nat.lt_or_ge r 3 with h | h
        · -- r = 2 is a power of two, so the branch is not taken
          interval_cases r
          · exact absurd (by decide : (2:Nat) &&& (2 - 1) = 0) hand
        · simpa using (by omega : 1 < r)
      have := capLoop_eq_clog r 0 h1 (by norm_num)
      simp only [pow_zero] at this
      rw [this]
      have : 0 < Nat.clog 2 r := Nat.clog_pos (by norm_num) (by omega)
      have h2 : 2 ≤ 2 ^ Nat.clog 2 r := by
        calc (2:Nat) = 2 ^ 1 := by norm_num
        _ ≤ 2 ^ Nat.clog 2 r := Nat.pow_le_pow_right (by norm_num) (by omega)
      omega
    · push_neg at hand
      rw [if_neg (by simp [hand])]
      have hpow : r = 2 ^ Nat.log 2 r := eq_pow_of_and_pred_eq_zero hlt hand
      have hclog : Nat.clog 2 r = Nat.log 2 r := by
        conv_lhs => rw [hpow]
        exact Nat.clog_pow 2 _ (by norm_num)
      rw [hclog, ← hpow]
      omega

/-- For a target `size ≤ 2 ^ 63` the wrapping `size_t` loop exits within the
fuel bound `64 ≤ fuel + j` when started at `cap = 2 ^ j`, and agrees with the
total auxiliary `capLoop`: no iterate overflows, because `cap` reaches
`2 ^ 63 ≥ size` first. -/
theorem capLoopW_eq_capLoop (size : Nat) (hsz : size ≤ 2 ^ 63) (fuel : Nat) :
    ∀ j : Nat, j ≤ 63 → 64 ≤ fuel + j → ∀ h : 0 < 2 ^ j,
      capLoopW size (2 ^ j) fuel = some (capLoop size (2 ^ j) h) := by
  induction fuel with
  | zero =>
    intro j hj hfuel h
    exact absurd hfuel (by omega)
  | succ fuel ih =>
    intro j hj hfuel h
    by_cases hlt : 2 ^ j < size
    · have hj63 : j < 63 := by
        by_contra hc
        have hj' : j = 63 := by omega
        subst hj'
        omega
      have hstep : 2 ^ j * 2 % 2 ^ 64 = 2 ^ (j + 1) := by
        rw [← Nat.pow_succ]
        exact Nat.mod_eq_of_lt (Nat.pow_lt_pow_right (by norm_num) (by omega))
      have hR : capLoop size (2 ^ j) h = capLoop size (2 ^ (j + 1)) (by positivity) := by
        rw [capLoop, dif_pos hlt]
        congr 1
      rw [hR, capLoopW, if_pos hlt, hstep]
      exact ih (j + 1) (by omega) (by omega) (by positivity)
    · have hR : capLoop size (2 ^ j) h = 2 ^ j := by
        rw [capLoop, dif_neg hlt]
      rw [hR, capLoopW, if_neg hlt]

/-- For a target above `2 ^ 63` the wrapping loop never exits: every iterate
is `0` or a power of two `≤ 2 ^ 63`, hence always below the target. -/
theorem capLoopW_none (size : Nat) (hsz : 2 ^ 63 < size) (fuel : Nat) :
    ∀ cap : Nat, (cap = 0 ∨ ∃ j, j ≤ 63 ∧ cap = 2 ^ j) →
      capLoopW size cap fuel = none := by
  induction fuel with
  | zero => intro cap _; rfl
  | succ fuel ih =>
    intro cap hshape
    have hlt : cap < size := by
      rcases hshape with h0 | ⟨j, hj, hcap⟩
      · omega
      · subst hcap
        have : (2 : Nat) ^ j ≤ 2 ^ 63 := Nat.pow_le_pow_right (by norm_num) hj
        omega
    rw [capLoopW, if_pos hlt]
    apply ih
    rcases hshape with h0 | ⟨j, hj, hcap⟩
    · subst h0
      left
      simp
    · subst hcap
      by_cases hj63 : j = 63
      · subst hj63
        left
        rw [← Nat.pow_succ]
        exact Nat.mod_self _
      · right
        refine ⟨j + 1, by omega, ?_⟩
        rw [← Nat.pow_succ]
        exact Nat.mod_eq_of_lt (Nat.pow_lt_pow_right (by norm_num) (by omega))

/-- For a request `r ≤ 2 ^ 63` the constructors' capacity coercion exits
within 66 loop iterations and computes the same value as the total auxiliary
`coerceCap`, i.e. `max 2 (next_power_of_two r)`. -/
theorem coerceCapW_eq (r : Nat) (hr : r ≤ 2 ^ 63) :
    coerceCapW r 66 = some (coerceCap r) := by
  simp only [coerceCapW, coerceCap]
  by_cases h2 : r < 2
  · rw [if_pos h2,
        if_neg (by decide : ¬((2 : Nat) &&& (2 - 1) ≠ 0)),
        if_neg (by decide : ¬((2 : Nat) &&& (2 - 1) ≠ 0))]
  · rw [if_neg h2]
    by_cases hand : r &&& (r - 1) ≠ 0
    · rw [if_pos hand, if_pos hand]
      exact capLoopW_eq_capLoop r hr 66 0 (by omega) (by omega) (by norm_num)
    · rw [if_neg hand, if_neg hand]

/-- For a `size_t` request `2 ^ 63 < r < 2 ^ 64` — necessarily not a power of
two, since `2 ^ 64` is the next one — the coercion takes the rounding-loop
branch and the loop never exits, whatever the fuel. -/
theorem coerceCapW_none (r : Nat) (h1 : 2 ^ 63 < r) (h2 : r < 2 ^ 64)
    (fuel : Nat) : coerceCapW r fuel = none := by
  have hr2 : ¬ r < 2 := by omega
  have hand : r &&& (r - 1) ≠ 0 := by
    intro h
    have hpow := eq_pow_of_and_pred_eq_zero (by omega) h
    set k := Nat.log 2 r with hk
    have hklt : k ≤ 63 := by
      by_contra hc
      have : (2 : Nat) ^ 64 ≤ 2 ^ k := Nat.pow_le_pow_right (by norm_num) (by omega)
      omega
    have : (2 : Nat) ^ k ≤ 2 ^ 63 := Nat.pow_le_pow_right (by norm_num) hklt
    omega
  simp only [coerceCapW]
  rw [if_neg hr2, if_pos hand]
  exact capLoopW_none r h1 fuel 1 (Or.inr ⟨0, by omega, rfl⟩)

/-- `x &&& (2^k - 1)` is `x % 2^k` (the index-masking idiom of all three
ring buffers). -/
theorem and_mask_eq_mod (x k : Nat) : x &&& (2 ^ k - 1) = x % 2 ^ k :=
  Nat.and_pow_two_sub_one_eq_mod x k

/-- Two numbers in a window of width `n` with the same residue are equal. -/
theorem window_mod_inj {n a b : Nat} (hab : a ≤ b) (hw : b - a < n)
    (h : a % n = b % n) : a = b := by
  have h0 : (b - a) % n = 0 := Nat.sub_mod_eq_zero_of_mod_eq h.symm
  obtain ⟨d, hd⟩ := Nat.dvd_of_mod_eq_zero h0
  rcases Nat.eq_zero_or_pos d with h1 | h1
  · subst h1
    rw [Nat.mul_zero] at hd
    omega
  · have h2 : n ≤ n * d := by
      calc n = n * 1 := (Nat.mul_one n).symm
      _ ≤ n * d := Nat.mul_le_mul_left n h1
    omega

/-- `x % n` for `x < 2 * n` written without `%`. -/
theorem mod_small_cases {x n : Nat} (hn : 0 < n) (hx : x < 2 * n) :
    x % n = if x < n then x else x - n := by
  by_cases h : x < n
  · simp [Nat.mod_eq_of_lt h, h]
  · push_neg at h
    have hs : x - n < n := by omega
    rw [if_neg (by omega)]
    have : x % n = (x - n) % n := by
      conv_lhs => rw [(by omega : x = (x - n) + n)]
      rw [Nat.add_mod_right]
    rw [this, Nat.mod_eq_of_lt hs]

theorem max_two_pow (c : Nat) : max 2 (2 ^ c) = 2 ^ max 1 c := by
  rcases Nat.eq_zero_or_pos c with h | h
  · subst h; simp
  · have h2 : 2 ≤ 2 ^ c := by
      calc (2:Nat) = 2 ^ 1 := by norm_num
      _ ≤ 2 ^ c := Nat.pow_le_pow_right (by norm_num) h
    have : max 1 c = c := by omega
    rw [this]
    omega

/-! ### Theorems: SPSCBuf -/

namespace SPSCBuf

theorem spsc_trunc_eq_min (l : Nat) :
    (if l > MAX_SLOT_SIZE then MAX_SLOT_SIZE else l) = min l 65535 := by
  simp only [MAX_SLOT_SIZE]
  split <;> omega

theorem WF.spsc_size_pos {s : State} (hs : WF s) : 0 < s.size_ := by
  obtain ⟨⟨k, hk, hsz⟩, _, _, _⟩ := hs
  have : 0 < (2:Nat) ^ k := by positivity
  omega

theorem WF.spsc_size_ge_two {s : State} (hs : WF s) : 2 ≤ s.size_ := by
  obtain ⟨⟨k, hk, hsz⟩, _, _, _⟩ := hs
  have : 2 ^ 1 ≤ (2:Nat) ^ k := Nat.pow_le_pow_right (by norm_num) hk
  omega

theorem WF.spsc_mask_eq_mod {s : State} (hs : WF s) (x : Nat) :
    x &&& (s.size_ - 1) = x % s.size_ := by
  obtain ⟨⟨k, _, hsz⟩, _, _, _⟩ := hs
  rw [hsz]
  exact and_mask_eq_mod x k

/-- The code's fullness test `(head+1) & mask == tail` is exactly
`count = size - 1`. -/
theorem full_iff {s : State} (hs : WF s) :
    isFull s ↔ (s.head_ + 1) % s.size_ = s.tail_ := by
  have h2 := hs.spsc_size_ge_two
  obtain ⟨_, hh, ht, _⟩ := hs
  rw [mod_small_cases (by omega) (by omega)]
  unfold isFull count
  by_cases hc : s.head_ + 1 < s.size_ <;> [skip; skip] <;>
    by_cases hc2 : s.tail_ ≤ s.head_ <;>
    simp only [hc, hc2, if_pos, if_neg, if_true, if_false] <;> omega

/-- The code's emptiness test `tail == head` is exactly `count = 0`. -/
theorem empty_iff {s : State} (hs : WF s) :
    isEmpty s ↔ s.tail_ = s.head_ := by
  obtain ⟨_, hh, ht, _⟩ := hs
  unfold isEmpty count
  by_cases hc2 : s.tail_ ≤ s.head_ <;>
    simp only [hc2, if_pos, if_neg, if_true, if_false] <;> omega

/-- `push` on a full queue: sentinel `-1`, state untouched. -/
theorem push_full {s : State} (hs : WF s) (hf : isFull s)
    (data : Nat → Nat) (len : Nat) : push s data len = (-1, s) := by
  have := (full_iff hs).mp hf
  simp [push, hs.spsc_mask_eq_mod, this]

/-- `push` on a non-full queue: the claimed slot is overwritten and the
(masked) producer cursor `head_` moves on by one. -/
theorem push_succ {s : State} (hs : WF s) (hf : ¬ isFull s)
    (data : Nat → Nat) (len : Nat) :
    push s data len =
      (((min len 65535 : Nat) : Int),
        { s with
            buf_ := updFn s.buf_ s.head_
              { len_ := min len 65535 % 65536
                data_ := memcpyBytes (s.buf_ s.head_).data_ data (min len 65535) }
            head_ := (s.head_ + 1) % s.size_ }) := by
  have hne : (s.head_ + 1) % s.size_ ≠ s.tail_ := fun h => hf ((full_iff hs).mpr h)
  simp [push, hs.spsc_mask_eq_mod, spsc_trunc_eq_min, hne]

/-- `pop` on an empty queue: sentinel `-1`, state untouched, no bytes. -/
theorem pop_empty {s : State} (hs : WF s) (he : isEmpty s)
    (len : Nat) : pop s len = (-1, s, []) := by
  have := (empty_iff hs).mp he
  simp [pop, this]

theorem min_len_eq (L a : Nat) :
    (if L > a then a else L) = min L a := by
  split <;> omega

/-- `pop` on a non-empty queue: `min len len_` bytes of the slot at `tail_`
are returned and the (masked) consumer cursor `tail_` moves on by one. -/
theorem pop_succ {s : State} (hs : WF s) (he : ¬ isEmpty s)
    (len : Nat) :
    pop s len =
      (((min len (s.buf_ s.tail_).len_ : Nat) : Int),
        { s with tail_ := (s.tail_ + 1) % s.size_ },
        (List.range (min len (s.buf_ s.tail_).len_)).map (s.buf_ s.tail_).data_) := by
  have hne : s.tail_ ≠ s.head_ := fun h => he ((empty_iff hs).mpr h)
  simp [pop, hs.spsc_mask_eq_mod, min_len_eq, hne]

theorem spsc_init_WF (n : Nat) : WF (init n) := by
  refine ⟨⟨max 1 (Nat.clog 2 n), ?_, ?_⟩, ?_, ?_, ?_⟩
  · omega
  · show coerceCap n = _
    rw [coerceCap_eq, next_power_of_two, max_two_pow]
  · show 0 < coerceCap n
    rw [coerceCap_eq]; omega
  · show 0 < coerceCap n
    rw [coerceCap_eq]; omega
  · intro i
    show 0 ≤ MAX_SLOT_SIZE
    omega

theorem init_count (n : Nat) : count (init n) = 0 := by
  simp [count, init]

theorem init_absQ (n : Nat) : absQ (init n) = [] := by
  simp [absQ, init_count]

theorem push_succ_WF {s : State} (hs : WF s) (hf : ¬ isFull s)
    (data : Nat → Nat) (len : Nat) : WF (push s data len).2 := by
  rw [push_succ hs hf]
  dsimp only
  obtain ⟨⟨k, hk, hsz⟩, hh, ht, hl⟩ := hs
  refine ⟨⟨k, hk, hsz⟩, ?_, ht, ?_⟩
  · exact Nat.mod_lt _ (by omega)
  · intro i
    by_cases hih : i = s.head_
    · subst hih
      simp only [updFn_same]
      have : min len 65535 % 65536 < 65536 := Nat.mod_lt _ (by omega)
      simp only [MAX_SLOT_SIZE]
      omega
    · simp only [updFn, if_neg hih]
      exact hl i

theorem push_succ_count {s : State} (hs : WF s) (hf : ¬ isFull s)
    (data : Nat → Nat) (len : Nat) :
    count (push s data len).2 = count s + 1 := by
  have h2 := hs.spsc_size_ge_two
  have hh := hs.2.1
  have ht := hs.2.2.1
  have hfull := hf
  unfold isFull count at hfull
  rw [push_succ hs hf]
  unfold count
  simp only
  rw [mod_small_cases (by omega) (by omega)]
  split_ifs at hfull ⊢ <;> omega

/-- The raw position just past the newest message maps to `head_`. -/
theorem count_pos_eq_head {s : State} (hs : WF s) :
    (s.tail_ + count s) % s.size_ = s.head_ := by
  have h2 := hs.spsc_size_ge_two
  have hh := hs.2.1
  have ht := hs.2.2.1
  unfold count
  by_cases hc : s.tail_ ≤ s.head_
  · rw [if_pos hc]
    rw [Nat.mod_eq_of_lt (by omega)]
    omega
  · rw [if_neg hc]
    have : s.tail_ + (s.head_ + s.size_ - s.tail_) = s.head_ + s.size_ := by omega
    rw [this, Nat.add_mod_right, Nat.mod_eq_of_lt (by omega)]

/-- Queued positions never alias the producer slot `head_`. -/
theorem queued_ne_head {s : State} (hs : WF s) {i : Nat} (hi : i < count s) :
    (s.tail_ + i) % s.size_ ≠ s.head_ := by
  have h2 := hs.spsc_size_ge_two
  have hh := hs.2.1
  have ht := hs.2.2.1
  have hcb : count s < s.size_ := by
    unfold count
    split_ifs <;> omega
  rw [mod_small_cases (by omega) (by omega)]
  unfold count at hi
  split_ifs at hi ⊢ <;> omega

theorem push_succ_absQ {s : State} (hs : WF s) (hf : ¬ isFull s)
    (data : Nat → Nat) (len : Nat) :
    absQ (push s data len).2 =
      absQ s ++ [(List.range (min len 65535)).map data] := by
  have hcnt := push_succ_count hs hf data len
  have hF2 := count_pos_eq_head hs
  rw [push_succ hs hf] at hcnt ⊢
  unfold absQ
  simp only at hcnt ⊢
  rw [hcnt, List.range_succ, List.map_append]
  congr 1
  · apply List.map_congr_left
    intro i hi
    rw [List.mem_range] at hi
    rw [updFn_other _ _ _ _ (queued_ne_head hs hi)]
  · simp only [List.map_cons, List.map_nil]
    rw [hF2, updFn_same]
    unfold slotMsg
    simp only
    rw [Nat.mod_eq_of_lt (by omega : min len 65535 < 65536)]
    congr 1
    apply List.map_congr_left
    intro i hi
    rw [List.mem_range] at hi
    simp [memcpyBytes, hi]

theorem pop_succ_WF {s : State} (hs : WF s) (he : ¬ isEmpty s)
    (len : Nat) : WF (pop s len).2.1 := by
  rw [pop_succ hs he]
  obtain ⟨⟨k, hk, hsz⟩, hh, ht, hl⟩ := hs
  refine ⟨⟨k, hk, hsz⟩, hh, ?_, hl⟩
  exact Nat.mod_lt _ (by omega)

theorem pop_succ_count {s : State} (hs : WF s) (he : ¬ isEmpty s)
    (len : Nat) :
    count (pop s len).2.1 = count s - 1 := by
  have h2 := hs.spsc_size_ge_two
  have hh := hs.2.1
  have ht := hs.2.2.1
  have hemp := he
  unfold isEmpty count at hemp
  rw [pop_succ hs he]
  unfold count
  simp only
  rw [mod_small_cases (by omega) (by omega)]
  split_ifs at hemp ⊢ <;> omega

theorem count_pos_of_ne_empty {s : State} (hs : WF s) (he : ¬ isEmpty s) :
    0 < count s := by
  unfold isEmpty at he
  omega

theorem pop_succ_absQ {s : State} (hs : WF s) (he : ¬ isEmpty s)
    (len : Nat) :
    absQ s = slotMsg (s.buf_ s.tail_) :: absQ (pop s len).2.1 := by
  have h2 := hs.spsc_size_ge_two
  have ht := hs.2.2.1
  have hcnt := pop_succ_count hs he len
  have hpos := count_pos_of_ne_empty hs he
  rw [pop_succ hs he] at hcnt ⊢
  unfold absQ
  simp only at hcnt ⊢
  rw [hcnt]
  obtain ⟨c, hc⟩ : ∃ c, count s = c + 1 := ⟨count s - 1, by omega⟩
  rw [hc]
  simp only [Nat.add_sub_cancel]
  rw [List.range_succ_eq_map, List.map_cons, List.map_map]
  congr 1
  · rw [Nat.add_zero, Nat.mod_eq_of_lt ht]
  · apply List.map_congr_left
    intro i hi
    simp only [Function.comp]
    rw [Nat.mod_add_mod]
    have harg : s.tail_ + 1 + i = s.tail_ + Nat.succ i := by omega
    rw [harg]

/-- A pop with a large-enough caller buffer returns exactly the queued
message at `tail_`. -/
theorem pop_out {s : State} (hs : WF s) (he : ¬ isEmpty s)
    {len : Nat} (hL : (s.buf_ s.tail_).len_ ≤ len) :
    (pop s len).2.2 = slotMsg (s.buf_ s.tail_) ∧
    (pop s len).1 = ((s.buf_ s.tail_).len_ : Int) := by
  rw [pop_succ hs he]
  have : min len (s.buf_ s.tail_).len_ = (s.buf_ s.tail_).len_ := by omega
  simp [slotMsg, this]

end SPSCBuf

namespace SPSCBuf

/-- Soundness of a successful run: pushed messages flow to the popped
outputs through the queue, in order. -/
theorem run_ok {ops : List Op} :
    ∀ {s sf : State} {outs : List (List Nat)}, WF s →
      run s ops = (sf, outs, true) →
      WF sf ∧ absQ s ++ pushedMsgs ops = outs ++ absQ sf := by
  induction ops with
  | nil =>
      intro s sf outs hs h
      simp only [run, Prod.mk.injEq] at h
      obtain ⟨h1, h2, -⟩ := h
      subst h1; subst h2
      simp [pushedMsgs]
      exact hs
  | cons op ops ih =>
      intro s sf outs hs h
      cases op with
      | push d l =>
          simp only [run, Prod.mk.injEq] at h
          obtain ⟨h1, h2, h3⟩ := h
          rw [Bool.and_eq_true, decide_eq_true_eq] at h3
          obtain ⟨hne, hok⟩ := h3
          have hnf : ¬ isFull s := by
            intro hfull
            rw [push_full hs hfull] at hne
            exact hne rfl
          have hrun : run (push s d l).2 ops = (sf, outs, true) := by
            have he : run (push s d l).2 ops
                = ((run (push s d l).2 ops).1, (run (push s d l).2 ops).2.1,
                   (run (push s d l).2 ops).2.2) := rfl
            rw [he, h1, h2, hok]
          obtain ⟨hwf, habs⟩ := ih (push_succ_WF hs hnf d l) hrun
          refine ⟨hwf, ?_⟩
          rw [pushedMsgs, List.append_cons, ← push_succ_absQ hs hnf d l, habs]
      | pop =>
          simp only [run, Prod.mk.injEq] at h
          obtain ⟨h1, h2, h3⟩ := h
          rw [Bool.and_eq_true, decide_eq_true_eq] at h3
          obtain ⟨hne, hok⟩ := h3
          have hemp : ¬ isEmpty s := by
            intro hempty
            rw [pop_empty hs hempty] at hne
            exact hne rfl
          have hrun : run (pop s MAX_SLOT_SIZE).2.1 ops
              = (sf, (run (pop s MAX_SLOT_SIZE).2.1 ops).2.1, true) := by
            have he : run (pop s MAX_SLOT_SIZE).2.1 ops
                = ((run (pop s MAX_SLOT_SIZE).2.1 ops).1,
                   (run (pop s MAX_SLOT_SIZE).2.1 ops).2.1,
                   (run (pop s MAX_SLOT_SIZE).2.1 ops).2.2) := rfl
            rw [he, h1, hok]
          obtain ⟨hwf, habs⟩ := ih (pop_succ_WF hs hemp MAX_SLOT_SIZE) hrun
          refine ⟨hwf, ?_⟩
          have hout := (pop_out hs hemp (hs.2.2.2 s.tail_)).1
          rw [pushedMsgs, ← h2, hout, List.cons_append, ← habs,
            pop_succ_absQ hs hemp MAX_SLOT_SIZE, List.cons_append]

end SPSCBuf

namespace SPSCBuf

theorem absQ_length (s : State) : (absQ s).length = count s := by
  simp [absQ]

theorem run_outs_length (ops : List Op) :
    ∀ s : State, ((run s ops).2.1).length = numPops ops := by
  induction ops with
  | nil => intro s; simp [run, numPops]
  | cons op ops ih =>
      intro s
      cases op with
      | push d l =>
          simp only [run, numPops]
          exact ih _
      | pop =>
          simp only [run, numPops, List.length_cons]
          rw [ih _]

theorem pushedMsgs_length (ops : List Op) :
    (pushedMsgs ops).length = numPushes ops := by
  induction ops with
  | nil => simp [pushedMsgs, numPushes]
  | cons op ops ih => cases op <;> simp [pushedMsgs, numPushes, ih]

/-- With `tail_ = 0` (no pops yet), the number of pushes that succeed
before the first sentinel is `size_ - 1 - head_` (bounded by the number of
attempts). -/
theorem spsc_fillCount_formula (items : List ((Nat → Nat) × Nat)) :
    ∀ s : State, WF s → s.tail_ = 0 →
      fillCount s items = min (s.size_ - 1 - s.head_) items.length := by
  induction items with
  | nil =>
      intro s hs ht0
      simp [fillCount]
  | cons dl rest ih =>
      intro s hs ht0
      obtain ⟨d, l⟩ := dl
      have h2 := hs.spsc_size_ge_two
      have hh := hs.2.1
      by_cases hfull : isFull s
      · have hccount : count s = s.head_ := by
          unfold count
          rw [ht0]
          simp
        have hhead : s.head_ = s.size_ - 1 := by
          have := hfull
          unfold isFull at this
          omega
        rw [fillCount]
        simp only [push_full hs hfull d l]
        simp only [if_true]
        omega
      · have hr := push_succ hs hfull d l
        have hnotend : s.head_ ≠ s.size_ - 1 := by
          intro hcon
          apply hfull
          unfold isFull count
          rw [ht0]
          simp only [Nat.zero_le, if_pos]
          omega
        have hmod : (s.head_ + 1) % s.size_ = s.head_ + 1 :=
          Nat.mod_eq_of_lt (by omega)
        have hne : (push s d l).1 ≠ -1 := by
          rw [hr]
          intro hcon
          simp at hcon
          omega
        have hih := ih (push s d l).2 (push_succ_WF hs hfull d l)
          (by rw [hr]; exact ht0)
        have hsz : (push s d l).2.size_ = s.size_ := by rw [hr]
        have hhd : (push s d l).2.head_ = (s.head_ + 1) % s.size_ := by rw [hr]
        rw [show fillCount s ((d, l) :: rest)
            = (if (push s d l).1 = -1 then 0
               else fillCount (push s d l).2 rest + 1) from rfl]
        rw [if_neg hne, hih, hsz, hhd, hmod, List.length_cons]
        omega

end SPSCBuf

/-! ### Theorems: MPSCBuf -/

namespace MPSCBuf

theorem mpsc_trunc_eq_min (l : Nat) :
    (if l > MAX_NODE_SIZE then MAX_NODE_SIZE else l) = min l 65535 := by
  simp only [MAX_NODE_SIZE]
  split <;> omega

theorem WF.mpsc_size_pos {s : State} (hw : WF s) : 0 < s.size_ := by
  obtain ⟨k, hk, hsz⟩ := hw
  have : 0 < (2:Nat) ^ k := by positivity
  omega

theorem WF.mpsc_size_ge_two {s : State} (hw : WF s) : 2 ≤ s.size_ := by
  obtain ⟨k, hk, hsz⟩ := hw
  have : 2 ^ 1 ≤ (2:Nat) ^ k := Nat.pow_le_pow_right (by norm_num) hk
  omega

theorem WF.mpsc_mask_eq_mod {s : State} (hw : WF s) (x : Nat) :
    x &&& (s.size_ - 1) = x % s.size_ := by
  obtain ⟨k, _, hsz⟩ := hw
  rw [hsz]
  exact and_mask_eq_mod x k

theorem mpsc_init_WF (n : Nat) : WF (init n) :=
  ⟨max 1 (Nat.clog 2 n), by omega, by
    show coerceCap n = _
    rw [coerceCap_eq, next_power_of_two, max_two_pow]⟩

theorem mpsc_init_head (n : Nat) : (init n).head_ = 0 := rfl

theorem mpsc_init_tail (n : Nat) : (init n).tail_ = 0 := rfl

theorem mpsc_init_size (n : Nat) : (init n).size_ = coerceCap n := rfl

theorem mpsc_init_buf (n i : Nat) :
    (init n).buf_ i
      = { seq := if i < coerceCap n then i else 0
          len_ := 0
          data_ := fun _ => 0 } := rfl

theorem mpsc_init_Inv (n : Nat) : Inv (init n) := by
  have hsp : 0 < coerceCap n := (mpsc_init_WF n).mpsc_size_pos
  refine ⟨Nat.le_refl 0, Nat.zero_le _, ?_, ?_, ?_⟩
  · intro j hj1 hj2
    rw [mpsc_init_tail] at hj2
    omega
  · intro j hj1 hj2
    rw [mpsc_init_head, mpsc_init_size] at hj2
    rw [mpsc_init_size]
    simp only [mpsc_init_buf]
    have hjlt : j < coerceCap n := by omega
    rw [Nat.mod_eq_of_lt hjlt, if_pos hjlt]
  · intro i
    simp only [mpsc_init_buf]
    simp [MAX_NODE_SIZE]

/-- On a full queue the claimed slot still carries the publication stamp of
one lap earlier. -/
theorem mpsc_full_seq {s : State} (hw : WF s) (hi : Inv s) (hf : isFull s) :
    (s.buf_ (s.tail_ % s.size_)).seq = s.head_ + 1 := by
  have h2 := hw.mpsc_size_ge_two
  have hlt : s.head_ < s.tail_ := by rw [hf]; omega
  have hmm : s.tail_ % s.size_ = s.head_ % s.size_ := by
    rw [hf, Nat.add_mod_right]
  rw [hmm]
  exact hi.2.2.1 s.head_ (Nat.le_refl _) hlt

/-- `enqueue` on a full queue: `diff < 0`, sentinel `-1`, state untouched. -/
theorem mpsc_enqueue_full {s : State} (hw : WF s) (hi : Inv s) (hf : isFull s)
    (data : Nat → Nat) (len : Nat) :
    enqueue s data len = some (-1, s) := by
  have h2 := hw.mpsc_size_ge_two
  have hseq := mpsc_full_seq hw hi hf
  simp only [enqueue, hw.mpsc_mask_eq_mod, mpsc_trunc_eq_min]
  have hc1 : ¬(((s.buf_ (s.tail_ % s.size_)).seq : Int) - (s.tail_ : Int) = 0) := by
    rw [hseq, hf]
    push_cast
    omega
  have hc2 : ((s.buf_ (s.tail_ % s.size_)).seq : Int) - (s.tail_ : Int) < 0 := by
    rw [hseq, hf]
    push_cast
    omega
  rw [if_neg hc1, if_pos hc2]

/-- `enqueue` on a non-full queue: `diff = 0`, the CAS claims raw position
`tail_`, the slot is filled and published with `seq = tail_ + 1`. -/
theorem mpsc_enqueue_succ {s : State} (hw : WF s) (hi : Inv s) (hnf : ¬ isFull s)
    (data : Nat → Nat) (len : Nat) :
    enqueue s data len =
      some (((min len 65535 : Nat) : Int),
        { s with
            tail_ := s.tail_ + 1
            buf_ := updFn s.buf_ (s.tail_ % s.size_)
              { seq := s.tail_ + 1
                len_ := min len 65535 % 65536
                data_ := memcpyBytes (s.buf_ (s.tail_ % s.size_)).data_ data
                  (min len 65535) } }) := by
  have hseq : (s.buf_ (s.tail_ % s.size_)).seq = s.tail_ :=
    hi.2.2.2.1 s.tail_ (Nat.le_refl _) (lt_of_le_of_ne hi.2.1 hnf)
  simp only [enqueue, hw.mpsc_mask_eq_mod, mpsc_trunc_eq_min]
  have hc : ((s.buf_ (s.tail_ % s.size_)).seq : Int) - (s.tail_ : Int) = 0 := by
    rw [hseq]
    simp
  rw [if_pos hc]

/-- `dequeue` on an empty queue: `diff = -1 < 0`, sentinel `-1`. -/
theorem mpsc_dequeue_empty {s : State} (hw : WF s) (hi : Inv s) (he : isEmpty s)
    (len : Nat) : dequeue s len = (-1, s, []) := by
  have hsp := hw.mpsc_size_pos
  have hseq : (s.buf_ (s.head_ % s.size_)).seq = s.head_ :=
    hi.2.2.2.1 s.head_ (by rw [he]) (by omega)
  simp only [dequeue, hw.mpsc_mask_eq_mod]
  have hc : ((s.buf_ (s.head_ % s.size_)).seq : Int) - ((s.head_ : Int) + 1) < 0 := by
    rw [hseq]
    omega
  rw [if_pos hc]

/-- `dequeue` on a non-empty queue: the slot at `head_` is drained, its
sequence re-armed to `head_ + size_`, and `head_` advanced. -/
theorem mpsc_dequeue_succ {s : State} (hw : WF s) (hi : Inv s) (hne : ¬ isEmpty s)
    (len : Nat) :
    dequeue s len =
      (((min len (s.buf_ (s.head_ % s.size_)).len_ : Nat) : Int),
        { s with
            head_ := s.head_ + 1
            buf_ := updFn s.buf_ (s.head_ % s.size_)
              { s.buf_ (s.head_ % s.size_) with seq := s.head_ + s.size_ } },
        (List.range (min len (s.buf_ (s.head_ % s.size_)).len_)).map
          (s.buf_ (s.head_ % s.size_)).data_) := by
  have hlt : s.head_ < s.tail_ :=
    lt_of_le_of_ne hi.1 (fun h => hne h.symm)
  have hseq : (s.buf_ (s.head_ % s.size_)).seq = s.head_ + 1 :=
    hi.2.2.1 s.head_ (Nat.le_refl _) hlt
  simp only [dequeue, hw.mpsc_mask_eq_mod, SPSCBuf.min_len_eq]
  have hc : ¬(((s.buf_ (s.head_ % s.size_)).seq : Int) - ((s.head_ : Int) + 1) < 0) := by
    rw [hseq]
    omega
  rw [if_neg hc]

end MPSCBuf

namespace MPSCBuf

/-- Building block: `Inv` for an explicit record. -/
theorem mpsc_Inv_parts {σ : Nat} {B : Nat → Node} {H T : Nat}
    (h1 : H ≤ T) (h2 : T ≤ H + σ)
    (h3 : ∀ j, H ≤ j → j < T → (B (j % σ)).seq = j + 1)
    (h4 : ∀ j, T ≤ j → j < H + σ → (B (j % σ)).seq = j)
    (h5 : ∀ i, (B i).len_ ≤ MAX_NODE_SIZE) :
    Inv { size_ := σ, buf_ := B, head_ := H, tail_ := T } :=
  ⟨h1, h2, h3, h4, h5⟩

/-- A successful enqueue preserves the Vyukov invariant. -/
theorem mpsc_enqueue_record_Inv {s : State} (hw : WF s) (hi : Inv s)
    (hnf : ¬ isFull s) (data : Nat → Nat) (len : Nat) :
    Inv { s with
            tail_ := s.tail_ + 1
            buf_ := updFn s.buf_ (s.tail_ % s.size_)
              { seq := s.tail_ + 1
                len_ := min len 65535 % 65536
                data_ := memcpyBytes (s.buf_ (s.tail_ % s.size_)).data_ data
                  (min len 65535) } } := by
  have h2 := hw.mpsc_size_ge_two
  obtain ⟨hi1, hi2, hifull, hiempty, hilen⟩ := hi
  have hlt : s.tail_ < s.head_ + s.size_ := lt_of_le_of_ne hi2 hnf
  apply mpsc_Inv_parts
  · omega
  · omega
  · intro j hj1 hj2
    by_cases hjt : j = s.tail_
    · subst hjt
      rw [updFn_same]
    · have hne : j % s.size_ ≠ s.tail_ % s.size_ := by
        intro heq
        exact hjt (window_mod_inj (by omega) (by omega) heq)
      rw [updFn_other _ _ _ _ hne]
      exact hifull j hj1 (by omega)
  · intro j hj1 hj2
    have hjt : j ≠ s.tail_ := by omega
    have hne : j % s.size_ ≠ s.tail_ % s.size_ := by
      intro heq
      exact hjt (window_mod_inj (by omega) (by omega) heq.symm).symm
    rw [updFn_other _ _ _ _ hne]
    exact hiempty j (by omega) hj2
  · intro i
    by_cases hit : i = s.tail_ % s.size_
    · subst hit
      rw [updFn_same]
      have : min len 65535 % 65536 < 65536 := Nat.mod_lt _ (by omega)
      simp only [MAX_NODE_SIZE]
      omega
    · rw [updFn_other _ _ _ _ hit]
      exact hilen i

/-- A successful dequeue preserves the Vyukov invariant; the drained slot
is re-armed with `seq = head_ + size_`. -/
theorem mpsc_dequeue_record_Inv {s : State} (hw : WF s) (hi : Inv s)
    (hne : ¬ isEmpty s) :
    Inv { s with
            head_ := s.head_ + 1
            buf_ := updFn s.buf_ (s.head_ % s.size_)
              { s.buf_ (s.head_ % s.size_) with seq := s.head_ + s.size_ } } := by
  have h2 := hw.mpsc_size_ge_two
  obtain ⟨hi1, hi2, hifull, hiempty, hilen⟩ := hi
  have hlt : s.head_ < s.tail_ := lt_of_le_of_ne hi1 (fun h => hne h.symm)
  apply mpsc_Inv_parts
  · omega
  · omega
  · intro j hj1 hj2
    have hjh : j ≠ s.head_ := by omega
    have hne' : j % s.size_ ≠ s.head_ % s.size_ := by
      intro heq
      exact hjh (window_mod_inj (by omega) (by omega) heq.symm).symm
    rw [updFn_other _ _ _ _ hne']
    exact hifull j (by omega) hj2
  · intro j hj1 hj2
    by_cases hjs : j = s.head_ + s.size_
    · subst hjs
      rw [Nat.add_mod_right, updFn_same]
    · have hjh : j ≠ s.head_ := by omega
      have hne' : j % s.size_ ≠ s.head_ % s.size_ := by
        intro heq
        exact hjh (window_mod_inj (by omega) (by omega) heq.symm).symm
      rw [updFn_other _ _ _ _ hne']
      exact hiempty j hj1 (by omega)
  · intro i
    by_cases hit : i = s.head_ % s.size_
    · subst hit
      rw [updFn_same]
      exact hilen _
    · rw [updFn_other _ _ _ _ hit]
      exact hilen i

/-- Every reachable state of the sequentialized MPSC queue is well-formed
and satisfies the Vyukov invariant. -/
theorem mpsc_reachable_wf_inv {s : State} (hr : Reachable s) : WF s ∧ Inv s := by
  induction hr with
  | init n => exact ⟨mpsc_init_WF n, mpsc_init_Inv n⟩
  | enq s d l r s' hrs heq ih =>
      obtain ⟨hw, hi⟩ := ih
      by_cases hf : isFull s
      · rw [mpsc_enqueue_full hw hi hf] at heq
        simp only [Option.some.injEq, Prod.mk.injEq] at heq
        rw [← heq.2]
        exact ⟨hw, hi⟩
      · rw [mpsc_enqueue_succ hw hi hf] at heq
        simp only [Option.some.injEq, Prod.mk.injEq] at heq
        rw [← heq.2]
        obtain ⟨k, hk, hsz⟩ := hw
        exact ⟨⟨k, hk, hsz⟩, mpsc_enqueue_record_Inv ⟨k, hk, hsz⟩ hi hf d l⟩
  | deq s l r s' out hrs heq ih =>
      obtain ⟨hw, hi⟩ := ih
      by_cases he : isEmpty s
      · rw [mpsc_dequeue_empty hw hi he] at heq
        simp only [Prod.mk.injEq] at heq
        rw [← heq.2.1]
        exact ⟨hw, hi⟩
      · rw [mpsc_dequeue_succ hw hi he] at heq
        simp only [Prod.mk.injEq] at heq
        rw [← heq.2.1]
        obtain ⟨k, hk, hsz⟩ := hw
        exact ⟨⟨k, hk, hsz⟩, mpsc_dequeue_record_Inv ⟨k, hk, hsz⟩ hi he⟩

end MPSCBuf

namespace MPSCBuf

theorem mpsc_fillCount_cons_some {s : State} {d : Nat → Nat} {l : Nat} {r : Int}
    {s' : State} (h : enqueue s d l = some (r, s'))
    (rest : List ((Nat → Nat) × Nat)) :
    fillCount s ((d, l) :: rest) = if r = -1 then 0 else fillCount s' rest + 1 := by
  rw [show fillCount s ((d, l) :: rest)
      = (match enqueue s d l with
         | some (r, s') => if r = -1 then 0 else fillCount s' rest + 1
         | none => 0) from rfl, h]

/-- With `head_ = 0` (no dequeues yet), the number of enqueues that succeed
before the first sentinel is `size_ - tail_`. -/
theorem mpsc_fillCount_formula (items : List ((Nat → Nat) × Nat)) :
    ∀ s : State, WF s → Inv s → s.head_ = 0 →
      fillCount s items = min (s.size_ - s.tail_) items.length := by
  induction items with
  | nil =>
      intro s hw hi hh0
      simp [fillCount]
  | cons dl rest ih =>
      intro s hw hi hh0
      obtain ⟨d, l⟩ := dl
      have h2 := hw.mpsc_size_ge_two
      by_cases hf : isFull s
      · rw [mpsc_fillCount_cons_some (mpsc_enqueue_full hw hi hf d l) rest, if_pos rfl,
          List.length_cons]
        have hfe := hf
        unfold isFull at hfe
        omega
      · have hlt : s.tail_ < s.head_ + s.size_ := lt_of_le_of_ne hi.2.1 hf
        rw [mpsc_fillCount_cons_some (mpsc_enqueue_succ hw hi hf d l) rest]
        rw [if_neg (by
          intro hcon
          simp at hcon
          omega)]
        rw [ih _ (by obtain ⟨k, hk, hsz⟩ := hw; exact ⟨k, hk, hsz⟩)
          (mpsc_enqueue_record_Inv hw hi hf d l) hh0]
        show min (s.size_ - (s.tail_ + 1)) rest.length + 1
          = min (s.size_ - s.tail_) ((d, l) :: rest).length
        rw [List.length_cons]
        omega

end MPSCBuf

/-! ### Theorems: MPMCBuf -/

namespace MPMCBuf

theorem WF.mpmc_size_pos {s : State} (hw : WF s) : 0 < s.size_ := by
  obtain ⟨k, hk, hsz⟩ := hw
  have : 0 < (2:Nat) ^ k := by positivity
  omega

theorem WF.mpmc_size_ge_two {s : State} (hw : WF s) : 2 ≤ s.size_ := by
  obtain ⟨k, hk, hsz⟩ := hw
  have : 2 ^ 1 ≤ (2:Nat) ^ k := Nat.pow_le_pow_right (by norm_num) hk
  omega

theorem WF.mpmc_mask_eq_mod {s : State} (hw : WF s) (x : Nat) :
    x &&& (s.size_ - 1) = x % s.size_ := by
  obtain ⟨k, _, hsz⟩ := hw
  rw [hsz]
  exact and_mask_eq_mod x k

/-- `adjust_size` is the same computation as the shared `coerceCap`. -/
theorem adjust_size_eq_coerceCap (n : Nat) : adjust_size n = coerceCap n := rfl

/-- The `size_t` model of `adjust_size` is the same computation as the shared
`size_t` coercion model `coerceCapW`. -/
theorem adjust_sizeW_eq_coerceCapW (n fuel : Nat) :
    adjust_sizeW n fuel = coerceCapW n fuel := rfl

/-- `adjust_size` computes `max 2 (next_power_of_two n)`. -/
theorem adjust_size_eq (n : Nat) :
    adjust_size n = max 2 (next_power_of_two n) := by
  rw [adjust_size_eq_coerceCap, coerceCap_eq]

theorem mpmc_init_WF (n : Nat) : WF (init n) :=
  ⟨max 1 (Nat.clog 2 n), by omega, by
    show adjust_size n = _
    rw [adjust_size_eq, next_power_of_two, max_two_pow]⟩

theorem mpmc_init_head (n : Nat) : (init n).head_ = 0 := rfl

theorem mpmc_init_tail (n : Nat) : (init n).tail_ = 0 := rfl

theorem mpmc_init_size (n : Nat) : (init n).size_ = adjust_size n := rfl

theorem mpmc_init_buf (n i : Nat) :
    (init n).buf_ i
      = { seq := if i < adjust_size n then i else 0
          len_ := 0
          data_ := fun _ => 0 } := rfl

theorem mpmc_init_Inv (n : Nat) : Inv (init n) := by
  have hsp : 0 < adjust_size n := (mpmc_init_WF n).mpmc_size_pos
  refine ⟨Nat.le_refl 0, Nat.zero_le _, ?_, ?_, ?_⟩
  · intro j hj1 hj2
    rw [mpmc_init_tail] at hj2
    omega
  · intro j hj1 hj2
    rw [mpmc_init_head, mpmc_init_size] at hj2
    rw [mpmc_init_size]
    simp only [mpmc_init_buf]
    have hjlt : j < adjust_size n := by omega
    rw [Nat.mod_eq_of_lt hjlt, if_pos hjlt]
  · intro i
    simp only [mpmc_init_buf]
    simp [MAX_NODE_SIZE]

/-- On a full queue the claimed slot still carries the publication stamp of
one lap earlier. -/
theorem mpmc_full_seq {s : State} (hw : WF s) (hi : Inv s) (hf : isFull s) :
    (s.buf_ (s.tail_ % s.size_)).seq = s.head_ + 1 := by
  have h2 := hw.mpmc_size_ge_two
  have hlt : s.head_ < s.tail_ := by rw [hf]; omega
  have hmm : s.tail_ % s.size_ = s.head_ % s.size_ := by
    rw [hf, Nat.add_mod_right]
  rw [hmm]
  exact hi.2.2.1 s.head_ (Nat.le_refl _) hlt

/-- `enqueue` on a full queue: `diff < 0`, sentinel `-1`, state untouched. -/
theorem mpmc_enqueue_full {s : State} (hw : WF s) (hi : Inv s) (hf : isFull s)
    (data : Nat → Nat) (len : Nat) :
    enqueue s data len = some (-1, s) := by
  have h2 := hw.mpmc_size_ge_two
  have hseq := mpmc_full_seq hw hi hf
  simp only [enqueue, hw.mpmc_mask_eq_mod, MPSCBuf.mpsc_trunc_eq_min]
  have hc1 : ¬(((s.buf_ (s.tail_ % s.size_)).seq : Int) - (s.tail_ : Int) = 0) := by
    rw [hseq, hf]
    push_cast
    omega
  have hc2 : ((s.buf_ (s.tail_ % s.size_)).seq : Int) - (s.tail_ : Int) < 0 := by
    rw [hseq, hf]
    push_cast
    omega
  rw [if_neg hc1, if_pos hc2]

/-- `enqueue` on a non-full queue claims raw position `tail_` and publishes
the slot with `seq = tail_ + 1`. -/
theorem mpmc_enqueue_succ {s : State} (hw : WF s) (hi : Inv s) (hnf : ¬ isFull s)
    (data : Nat → Nat) (len : Nat) :
    enqueue s data len =
      some (((min len 65535 : Nat) : Int),
        { s with
            tail_ := s.tail_ + 1
            buf_ := updFn s.buf_ (s.tail_ % s.size_)
              { seq := s.tail_ + 1
                len_ := min len 65535 % 65536
                data_ := memcpyBytes (s.buf_ (s.tail_ % s.size_)).data_ data
                  (min len 65535) } }) := by
  have hseq : (s.buf_ (s.tail_ % s.size_)).seq = s.tail_ :=
    hi.2.2.2.1 s.tail_ (Nat.le_refl _) (lt_of_le_of_ne hi.2.1 hnf)
  simp only [enqueue, hw.mpmc_mask_eq_mod, MPSCBuf.mpsc_trunc_eq_min]
  have hc : ((s.buf_ (s.tail_ % s.size_)).seq : Int) - (s.tail_ : Int) = 0 := by
    rw [hseq]
    simp
  rw [if_pos hc]

/-- `dequeue` on an empty queue: `diff = -1 < 0`, sentinel `-1`. -/
theorem mpmc_dequeue_empty {s : State} (hw : WF s) (hi : Inv s) (he : isEmpty s)
    (len : Nat) : dequeue s len = some (-1, s, []) := by
  have hsp := hw.mpmc_size_pos
  have hseq : (s.buf_ (s.head_ % s.size_)).seq = s.head_ :=
    hi.2.2.2.1 s.head_ (by rw [he]) (by omega)
  simp only [dequeue, hw.mpmc_mask_eq_mod]
  have hc1 : ¬(((s.buf_ (s.head_ % s.size_)).seq : Int) - ((s.head_ : Int) + 1) = 0) := by
    rw [hseq]
    omega
  have hc2 : ((s.buf_ (s.head_ % s.size_)).seq : Int) - ((s.head_ : Int) + 1) < 0 := by
    rw [hseq]
    omega
  rw [if_neg hc1, if_pos hc2]

/-- `dequeue` on a non-empty queue: the consumer CAS claims `head_`, the
slot is drained and re-armed with `seq = head_ + size_`. -/
theorem mpmc_dequeue_succ {s : State} (hw : WF s) (hi : Inv s) (hne : ¬ isEmpty s)
    (len : Nat) :
    dequeue s len =
      some (((min len (s.buf_ (s.head_ % s.size_)).len_ : Nat) : Int),
        { s with
            head_ := s.head_ + 1
            buf_ := updFn s.buf_ (s.head_ % s.size_)
              { s.buf_ (s.head_ % s.size_) with seq := s.head_ + s.size_ } },
        (List.range (min len (s.buf_ (s.head_ % s.size_)).len_)).map
          (s.buf_ (s.head_ % s.size_)).data_) := by
  have hlt : s.head_ < s.tail_ :=
    lt_of_le_of_ne hi.1 (fun h => hne h.symm)
  have hseq : (s.buf_ (s.head_ % s.size_)).seq = s.head_ + 1 :=
    hi.2.2.1 s.head_ (Nat.le_refl _) hlt
  simp only [dequeue, hw.mpmc_mask_eq_mod, SPSCBuf.min_len_eq]
  have hc : ((s.buf_ (s.head_ % s.size_)).seq : Int) - ((s.head_ : Int) + 1) = 0 := by
    rw [hseq]
    push_cast
    omega
  rw [if_pos hc]

/-- Building block: `Inv` for an explicit record. -/
theorem mpmc_Inv_parts {σ : Nat} {B : Nat → Node} {H T : Nat}
    (h1 : H ≤ T) (h2 : T ≤ H + σ)
    (h3 : ∀ j, H ≤ j → j < T → (B (j % σ)).seq = j + 1)
    (h4 : ∀ j, T ≤ j → j < H + σ → (B (j % σ)).seq = j)
    (h5 : ∀ i, (B i).len_ ≤ MAX_NODE_SIZE) :
    Inv { size_ := σ, buf_ := B, head_ := H, tail_ := T } :=
  ⟨h1, h2, h3, h4, h5⟩

/-- A successful enqueue preserves the Vyukov invariant. -/
theorem mpmc_enqueue_record_Inv {s : State} (hw : WF s) (hi : Inv s)
    (hnf : ¬ isFull s) (data : Nat → Nat) (len : Nat) :
    Inv { s with
            tail_ := s.tail_ + 1
            buf_ := updFn s.buf_ (s.tail_ % s.size_)
              { seq := s.tail_ + 1
                len_ := min len 65535 % 65536
                data_ := memcpyBytes (s.buf_ (s.tail_ % s.size_)).data_ data
                  (min len 65535) } } := by
  have h2 := hw.mpmc_size_ge_two
  obtain ⟨hi1, hi2, hifull, hiempty, hilen⟩ := hi
  have hlt : s.tail_ < s.head_ + s.size_ := lt_of_le_of_ne hi2 hnf
  apply mpmc_Inv_parts
  · omega
  · omega
  · intro j hj1 hj2
    by_cases hjt : j = s.tail_
    · subst hjt
      rw [updFn_same]
    · have hne : j % s.size_ ≠ s.tail_ % s.size_ := by
        intro heq
        exact hjt (window_mod_inj (by omega) (by omega) heq)
      rw [updFn_other _ _ _ _ hne]
      exact hifull j hj1 (by omega)
  · intro j hj1 hj2
    have hjt : j ≠ s.tail_ := by omega
    have hne : j % s.size_ ≠ s.tail_ % s.size_ := by
      intro heq
      exact hjt (window_mod_inj (by omega) (by omega) heq.symm).symm
    rw [updFn_other _ _ _ _ hne]
    exact hiempty j (by omega) hj2
  · intro i
    by_cases hit : i = s.tail_ % s.size_
    · subst hit
      rw [updFn_same]
      have : min len 65535 % 65536 < 65536 := Nat.mod_lt _ (by omega)
      simp only [MAX_NODE_SIZE]
      omega
    · rw [updFn_other _ _ _ _ hit]
      exact hilen i

/-- A successful dequeue preserves the Vyukov invariant. -/
theorem mpmc_dequeue_record_Inv {s : State} (hw : WF s) (hi : Inv s)
    (hne : ¬ isEmpty s) :
    Inv { s with
            head_ := s.head_ + 1
            buf_ := updFn s.buf_ (s.head_ % s.size_)
              { s.buf_ (s.head_ % s.size_) with seq := s.head_ + s.size_ } } := by
  have h2 := hw.mpmc_size_ge_two
  obtain ⟨hi1, hi2, hifull, hiempty, hilen⟩ := hi
  have hlt : s.head_ < s.tail_ := lt_of_le_of_ne hi1 (fun h => hne h.symm)
  apply mpmc_Inv_parts
  · omega
  · omega
  · intro j hj1 hj2
    have hjh : j ≠ s.head_ := by omega
    have hne' : j % s.size_ ≠ s.head_ % s.size_ := by
      intro heq
      exact hjh (window_mod_inj (by omega) (by omega) heq.symm).symm
    rw [updFn_other _ _ _ _ hne']
    exact hifull j (by omega) hj2
  · intro j hj1 hj2
    by_cases hjs : j = s.head_ + s.size_
    · subst hjs
      rw [Nat.add_mod_right, updFn_same]
    · have hjh : j ≠ s.head_ := by omega
      have hne' : j % s.size_ ≠ s.head_ % s.size_ := by
        intro heq
        exact hjh (window_mod_inj (by omega) (by omega) heq.symm).symm
      rw [updFn_other _ _ _ _ hne']
      exact hiempty j hj1 (by omega)
  · intro i
    by_cases hit : i = s.head_ % s.size_
    · subst hit
      rw [updFn_same]
      exact hilen _
    · rw [updFn_other _ _ _ _ hit]
      exact hilen i

/-- Every reachable state of the sequentialized MPMC queue is well-formed
and satisfies the Vyukov invariant. -/
theorem mpmc_reachable_wf_inv {s : State} (hr : Reachable s) : WF s ∧ Inv s := by
  induction hr with
  | init n => exact ⟨mpmc_init_WF n, mpmc_init_Inv n⟩
  | enq s d l r s' hrs heq ih =>
      obtain ⟨hw, hi⟩ := ih
      by_cases hf : isFull s
      · rw [mpmc_enqueue_full hw hi hf] at heq
        simp only [Option.some.injEq, Prod.mk.injEq] at heq
        rw [← heq.2]
        exact ⟨hw, hi⟩
      · rw [mpmc_enqueue_succ hw hi hf] at heq
        simp only [Option.some.injEq, Prod.mk.injEq] at heq
        rw [← heq.2]
        obtain ⟨k, hk, hsz⟩ := hw
        exact ⟨⟨k, hk, hsz⟩, mpmc_enqueue_record_Inv ⟨k, hk, hsz⟩ hi hf d l⟩
  | deq s l r s' out hrs heq ih =>
      obtain ⟨hw, hi⟩ := ih
      by_cases he : isEmpty s
      · rw [mpmc_dequeue_empty hw hi he] at heq
        simp only [Option.some.injEq, Prod.mk.injEq] at heq
        rw [← heq.2.1]
        exact ⟨hw, hi⟩
      · rw [mpmc_dequeue_succ hw hi he] at heq
        simp only [Option.some.injEq, Prod.mk.injEq] at heq
        rw [← heq.2.1]
        obtain ⟨k, hk, hsz⟩ := hw
        exact ⟨⟨k, hk, hsz⟩, mpmc_dequeue_record_Inv ⟨k, hk, hsz⟩ hi he⟩

theorem mpmc_fillCount_cons_some {s : State} {d : Nat → Nat} {l : Nat} {r : Int}
    {s' : State} (h : enqueue s d l = some (r, s'))
    (rest : List ((Nat → Nat) × Nat)) :
    fillCount s ((d, l) :: rest) = if r = -1 then 0 else fillCount s' rest + 1 := by
  rw [show fillCount s ((d, l) :: rest)
      = (match enqueue s d l with
         | some (r, s') => if r = -1 then 0 else fillCount s' rest + 1
         | none => 0) from rfl, h]

/-- With `head_ = 0` (no dequeues yet), the number of enqueues that succeed
before the first sentinel is `size_ - tail_`. -/
theorem mpmc_fillCount_formula (items : List ((Nat → Nat) × Nat)) :
    ∀ s : State, WF s → Inv s → s.head_ = 0 →
      fillCount s items = min (s.size_ - s.tail_) items.length := by
  induction items with
  | nil =>
      intro s hw hi hh0
      simp [fillCount]
  | cons dl rest ih =>
      intro s hw hi hh0
      obtain ⟨d, l⟩ := dl
      have h2 := hw.mpmc_size_ge_two
      by_cases hf : isFull s
      · rw [mpmc_fillCount_cons_some (mpmc_enqueue_full hw hi hf d l) rest, if_pos rfl,
          List.length_cons]
        have hfe := hf
        unfold isFull at hfe
        omega
      · have hlt : s.tail_ < s.head_ + s.size_ := lt_of_le_of_ne hi.2.1 hf
        rw [mpmc_fillCount_cons_some (mpmc_enqueue_succ hw hi hf d l) rest]
        rw [if_neg (by
          intro hcon
          simp at hcon
          omega)]
        rw [ih _ (by obtain ⟨k, hk, hsz⟩ := hw; exact ⟨k, hk, hsz⟩)
          (mpmc_enqueue_record_Inv hw hi hf d l) hh0]
        show min (s.size_ - (s.tail_ + 1)) rest.length + 1
          = min (s.size_ - s.tail_) ((d, l) :: rest).length
        rw [List.length_cons]
        omega

end MPMCBuf

/-! ### Theorems: RWSpinLock -/

namespace RWSpinLock

/-- Discipline invariant: the writer bit is only ever set with zero
readers, and the reader count fits its 31-bit field. -/
def LockInv (s : LockState) : Prop :=
  (s.writer = true → s.readers = 0) ∧ s.readers < 2 ^ 31

theorem word_writer {s : LockState} (h : s.writer = true) :
    word s = 2 ^ 31 + s.readers := by
  simp [word, h, WRITER_BIT, READER_INC]

theorem word_reader {s : LockState} (h : s.writer = false) :
    word s = s.readers := by
  simp [word, h, READER_INC]

theorem and_writer_bit_of_writer {r : Nat} (hr : r < 2 ^ 31) :
    (2 ^ 31 + r) &&& 2 ^ 31 = 2 ^ 31 := by
  rw [Nat.and_two_pow]
  have ht : (2 ^ 31 + r).testBit 31 = true := by
    have hd : (2 ^ 31 + r) / 2 ^ 31 = 1 :=
      Nat.div_eq_of_lt_le (by omega) (by omega)
    rw [Nat.testBit_to_div_mod, hd]
    rfl
  rw [ht]
  simp

theorem and_writer_bit_of_reader {r : Nat} (hr : r < 2 ^ 31) :
    r &&& 2 ^ 31 = 0 := by
  rw [Nat.and_two_pow]
  rw [Nat.testBit_eq_false_of_lt hr]
  simp

/-- Decoding the packed word: the reader field. -/
theorem readerCount_word {s : LockState} (hcap : s.readers < 2 ^ 31) :
    readerCount (word s) = s.readers := by
  unfold readerCount WRITER_BIT
  have hmask : ∀ x : Nat, x &&& (2 ^ 31 - 1) = x % 2 ^ 31 :=
    fun x => and_mask_eq_mod x 31
  cases hsw : s.writer
  · rw [word_reader hsw, hmask, Nat.mod_eq_of_lt hcap]
  · rw [word_writer hsw, hmask, Nat.add_mod_left, Nat.mod_eq_of_lt hcap]

/-- Decoding the packed word: the writer flag. -/
theorem writerFlag_word {s : LockState} (hcap : s.readers < 2 ^ 31) :
    writerFlag (word s) ↔ s.writer = true := by
  unfold writerFlag WRITER_BIT
  cases hsw : s.writer
  · rw [word_reader hsw, and_writer_bit_of_reader hcap]
    simp
  · rw [word_writer hsw, and_writer_bit_of_writer hcap]
    simp

theorem init_LockInv : LockInv { readers := 0, writer := false } := by
  constructor
  · intro _
    rfl
  · norm_num

theorem step_LockInv {s s' : LockState} (hs : LockInv s) (hstep : Step s s') :
    LockInv s' := by
  obtain ⟨h1, h2⟩ := hs
  cases hstep with
  | lock_shared hwbit hcap =>
      constructor
      · intro hwr
        exfalso
        have hw : s.writer = true := hwr
        rw [word_writer hw] at hwbit
        simp only [WRITER_BIT] at hwbit
        rw [and_writer_bit_of_writer h2] at hwbit
        exact absurd hwbit (by positivity)
      · exact hcap
  | unlock_shared hpos =>
      refine ⟨fun hwr => ?_, ?_⟩
      · have := h1 hwr
        show s.readers - 1 = 0
        omega
      · show s.readers - 1 < 2 ^ 31
        omega
  | lock_acquire hw0 =>
      have hr0 : s.readers = 0 := by
        cases hsw : s.writer
        · rw [word_reader hsw] at hw0
          exact hw0
        · rw [word_writer hsw] at hw0
          omega
      refine ⟨fun _ => hr0, ?_⟩
      show s.readers < 2 ^ 31
      omega
  | unlock hw =>
      refine ⟨fun _ => rfl, ?_⟩
      show (0:Nat) < 2 ^ 31
      norm_num

/-- Every reachable lock state satisfies the discipline invariant. -/
theorem reachable_LockInv {s : LockState} (hr : Reachable s) : LockInv s := by
  induction hr with
  | init => exact init_LockInv
  | step hrs hstep ih => exact step_LockInv ih hstep

end RWSpinLock

/-! ### Operation-level frame helpers -/

namespace SPSCBuf

theorem push_size (s : State) (d : Nat → Nat) (l : Nat) :
    (push s d l).2.size_ = s.size_ := by
  simp only [push]
  split_ifs <;> rfl

theorem pop_size (s : State) (L : Nat) :
    (pop s L).2.1.size_ = s.size_ := by
  simp only [pop]
  split_ifs <;> rfl

end SPSCBuf

namespace MPSCBuf

theorem mpsc_enqueue_some_size {s : State} {d : Nat → Nat} {l : Nat} {r : Int}
    {s' : State} (h : enqueue s d l = some (r, s')) : s'.size_ = s.size_ := by
  simp only [enqueue, mpsc_trunc_eq_min] at h
  split_ifs at h
  · simp only [Option.some.injEq, Prod.mk.injEq] at h
    rw [← h.2]
  · simp only [Option.some.injEq, Prod.mk.injEq] at h
    rw [← h.2]

theorem mpsc_enqSt_size (s : State) (d : Nat → Nat) (l : Nat) :
    (enqSt s d l).size_ = s.size_ := by
  unfold enqSt
  rcases h : enqueue s d l with _ | ⟨r, s'⟩
  · simp
  · simp only [Option.getD_some]
    exact mpsc_enqueue_some_size h

theorem dequeue_size (s : State) (L : Nat) :
    (dequeue s L).2.1.size_ = s.size_ := by
  simp only [dequeue]
  split_ifs <;> rfl

end MPSCBuf

namespace MPMCBuf

theorem mpmc_enqueue_some_size {s : State} {d : Nat → Nat} {l : Nat} {r : Int}
    {s' : State} (h : enqueue s d l = some (r, s')) : s'.size_ = s.size_ := by
  simp only [enqueue, MPSCBuf.mpsc_trunc_eq_min] at h
  split_ifs at h
  · simp only [Option.some.injEq, Prod.mk.injEq] at h
    rw [← h.2]
  · simp only [Option.some.injEq, Prod.mk.injEq] at h
    rw [← h.2]

theorem mpmc_enqSt_size (s : State) (d : Nat → Nat) (l : Nat) :
    (enqSt s d l).size_ = s.size_ := by
  unfold enqSt
  rcases h : enqueue s d l with _ | ⟨r, s'⟩
  · simp
  · simp only [Option.getD_some]
    exact mpmc_enqueue_some_size h

theorem dequeue_some_size {s : State} {L : Nat} {r : Int} {s' : State}
    {out : List Nat} (h : dequeue s L = some (r, s', out)) :
    s'.size_ = s.size_ := by
  simp only [dequeue, SPSCBuf.min_len_eq] at h
  split_ifs at h
  · simp only [Option.some.injEq, Prod.mk.injEq] at h
    rw [← h.2.1]
  · simp only [Option.some.injEq, Prod.mk.injEq] at h
    rw [← h.2.1]

theorem deqSt_size (s : State) (L : Nat) :
    (deqSt s L).size_ = s.size_ := by
  unfold deqSt
  rcases h : dequeue s L with _ | ⟨r, s', out⟩
  · simp
  · simp only [Option.getD_some]
    exact dequeue_some_size h

end MPMCBuf

/-! ### Claim theorems -/

/-- Counterexample to C3 as stated: the constructors do NOT terminate for
every requested capacity `r ≥ 0`.  For the representable `size_t` request
`r = 2 ^ 63 + 1` (not a power of two) the shared rounding loop
`while (cap < size) cap <<= 1;` never exits — `cap` walks through
`1, 2, 4, …, 2 ^ 63`, the next shift wraps it to `0`, and `0 < r` holds
forever — so no amount of fuel makes the `size_t` model of the coercion
(`coerceCapW`, and `MPMCBuf::adjust_size` via `adjust_sizeW`) return, and no
capacity `max 2 (next_power_of_two r) = 2 ^ 64` (unrepresentable in `size_t`
anyway) is ever set. -/
theorem C3_counterexample :
    (2 ^ 63 + 1 : Nat) < 2 ^ 64 ∧
    (∀ fuel : Nat, coerceCapW (2 ^ 63 + 1) fuel = none) ∧
    (∀ fuel : Nat, MPMCBuf.adjust_sizeW (2 ^ 63 + 1) fuel = none) := by
  refine ⟨by norm_num,
          fun fuel => coerceCapW_none _ (by norm_num) (by norm_num) fuel,
          fun fuel => ?_⟩
  rw [MPMCBuf.adjust_sizeW_eq_coerceCapW]
  exact coerceCapW_none _ (by norm_num) (by norm_num) fuel

/-- C3 (corrected): the constructors' `size_t` capacity coercion terminates
exactly for requests `r ≤ 2 ^ 63`: there the rounding loop exits within 66
iterations and the constructed capacity is `max 2 (next_power_of_two r)`
(request 1 gives 2, request 5 gives 8, request 8 gives 8), and no
push/pop/enqueue/dequeue of any queue ever changes the capacity; but for any
representable request `2 ^ 63 < r < 2 ^ 64` the rounding loop wraps `cap` to
`0` and never exits, whatever the fuel, so the constructor hangs. -/
theorem C3_capacity_rounding :
    (∀ r : Nat, r ≤ 2 ^ 63 →
       coerceCapW r 66 = some (max 2 (next_power_of_two r)) ∧
       MPMCBuf.adjust_sizeW r 66 = some (max 2 (next_power_of_two r))) ∧
    (∀ r : Nat, 2 ^ 63 < r → r < 2 ^ 64 → ∀ fuel : Nat,
       coerceCapW r fuel = none ∧ MPMCBuf.adjust_sizeW r fuel = none) ∧
    (∀ r : Nat, r ≤ 2 ^ 63 →
       (SPSCBuf.init r).size_ = max 2 (next_power_of_two r) ∧
       (MPSCBuf.init r).size_ = max 2 (next_power_of_two r) ∧
       (MPMCBuf.init r).size_ = max 2 (next_power_of_two r)) ∧
    (SPSCBuf.init 1).size_ = 2 ∧ (SPSCBuf.init 5).size_ = 8 ∧
    (SPSCBuf.init 8).size_ = 8 ∧
    (∀ s d l, (SPSCBuf.push s d l).2.size_ = s.size_) ∧
    (∀ s L, (SPSCBuf.pop s L).2.1.size_ = s.size_) ∧
    (∀ s d l, (MPSCBuf.enqSt s d l).size_ = s.size_) ∧
    (∀ s L, (MPSCBuf.dequeue s L).2.1.size_ = s.size_) ∧
    (∀ s d l, (MPMCBuf.enqSt s d l).size_ = s.size_) ∧
    (∀ s L, (MPMCBuf.deqSt s L).size_ = s.size_) := by
  have hclog5 : Nat.clog 2 5 = 3 := by
    have h1 : Nat.clog 2 5 ≤ 3 := (Nat.le_pow_iff_clog_le (by norm_num)).mp (by norm_num)
    have h2 : 2 < Nat.clog 2 5 := (Nat.pow_lt_iff_lt_clog (by norm_num)).mp (by norm_num)
    omega
  have hclog8 : Nat.clog 2 8 = 3 := by
    have h8 : (8:Nat) = 2 ^ 3 := by norm_num
    rw [h8, Nat.clog_pow 2 3 (by norm_num)]
  refine ⟨?_, ?_, ?_, ?_, ?_, ?_, ?_, ?_, ?_, ?_, ?_, ?_⟩
  · intro r hr
    constructor
    · rw [coerceCapW_eq r hr, coerceCap_eq]
    · rw [MPMCBuf.adjust_sizeW_eq_coerceCapW, coerceCapW_eq r hr, coerceCap_eq]
  · intro r h1 h2 fuel
    constructor
    · exact coerceCapW_none r h1 h2 fuel
    · rw [MPMCBuf.adjust_sizeW_eq_coerceCapW]
      exact coerceCapW_none r h1 h2 fuel
  · intro r _
    refine ⟨?_, ?_, ?_⟩
    · show coerceCap r = _
      exact coerceCap_eq r
    · show coerceCap r = _
      exact coerceCap_eq r
    · show MPMCBuf.adjust_size r = _
      exact MPMCBuf.adjust_size_eq r
  · show coerceCap 1 = 2
    rw [coerceCap_eq, next_power_of_two, Nat.clog_one_right]
    norm_num
  · show coerceCap 5 = 8
    rw [coerceCap_eq, next_power_of_two, hclog5]
    norm_num
  · show coerceCap 8 = 8
    rw [coerceCap_eq, next_power_of_two, hclog8]
    norm_num
  · exact SPSCBuf.push_size
  · exact SPSCBuf.pop_size
  · exact MPSCBuf.mpsc_enqSt_size
  · exact MPSCBuf.dequeue_size
  · exact MPMCBuf.mpmc_enqSt_size
  · exact MPMCBuf.deqSt_size

/-- Witness for C3: concrete instances of every guarded part — request 5 is
`≤ 2 ^ 63` and the coercion exits with capacity `8 = max 2
(next_power_of_two 5)`; request `2 ^ 63 + 1` is representable, above
`2 ^ 63`, and its loop is still dead after 100 iterations; and the
constructed capacity at request 5 is 8. -/
theorem C3_witness :
    coerceCapW 5 66 = some (max 2 (next_power_of_two 5)) ∧
    MPMCBuf.adjust_sizeW 5 66 = some (max 2 (next_power_of_two 5)) ∧
    coerceCapW (2 ^ 63 + 1) 100 = none ∧
    MPMCBuf.adjust_sizeW (2 ^ 63 + 1) 100 = none ∧
    (SPSCBuf.init 5).size_ = max 2 (next_power_of_two 5) :=
  ⟨(C3_capacity_rounding.1 5 (by norm_num)).1,
   (C3_capacity_rounding.1 5 (by norm_num)).2,
   (C3_capacity_rounding.2.1 (2 ^ 63 + 1) (by norm_num) (by norm_num) 100).1,
   (C3_capacity_rounding.2.1 (2 ^ 63 + 1) (by norm_num) (by norm_num) 100).2,
   (C3_capacity_rounding.2.2.1 5 (by norm_num)).1⟩

/-- C4: Filling a fresh queue with no intervening pops: SPSCBuf accepts
exactly `capacity - 1` pushes before the first `-1`, while MPSCBuf and
MPMCBuf accept exactly `capacity` enqueues before the first `-1` (whenever
enough pushes are attempted for the sentinel to appear). -/
theorem C4_fill_until_full :
    (∀ (n : Nat) (items : List ((Nat → Nat) × Nat)),
       (SPSCBuf.init n).size_ - 1 ≤ items.length →
       SPSCBuf.fillCount (SPSCBuf.init n) items = (SPSCBuf.init n).size_ - 1) ∧
    (∀ (n : Nat) (items : List ((Nat → Nat) × Nat)),
       (MPSCBuf.init n).size_ ≤ items.length →
       MPSCBuf.fillCount (MPSCBuf.init n) items = (MPSCBuf.init n).size_) ∧
    (∀ (n : Nat) (items : List ((Nat → Nat) × Nat)),
       (MPMCBuf.init n).size_ ≤ items.length →
       MPMCBuf.fillCount (MPMCBuf.init n) items = (MPMCBuf.init n).size_) := by
  refine ⟨?_, ?_, ?_⟩
  · intro n items hlen
    rw [SPSCBuf.spsc_fillCount_formula items (SPSCBuf.init n) (SPSCBuf.spsc_init_WF n) rfl]
    show min ((SPSCBuf.init n).size_ - 1 - 0) items.length = _
    omega
  · intro n items hlen
    rw [MPSCBuf.mpsc_fillCount_formula items (MPSCBuf.init n) (MPSCBuf.mpsc_init_WF n)
      (MPSCBuf.mpsc_init_Inv n) rfl]
    show min ((MPSCBuf.init n).size_ - 0) items.length = _
    omega
  · intro n items hlen
    rw [MPMCBuf.mpmc_fillCount_formula items (MPMCBuf.init n) (MPMCBuf.mpmc_init_WF n)
      (MPMCBuf.mpmc_init_Inv n) rfl]
    show min ((MPMCBuf.init n).size_ - 0) items.length = _
    omega

theorem C4_witness :
    SPSCBuf.fillCount (SPSCBuf.init 2) [(fun _ => 1, 1), (fun _ => 1, 1)] = 1 ∧
    MPSCBuf.fillCount (MPSCBuf.init 2) [(fun _ => 1, 1), (fun _ => 1, 1)] = 2 ∧
    MPMCBuf.fillCount (MPMCBuf.init 2) [(fun _ => 1, 1), (fun _ => 1, 1)] = 2 := by
  refine ⟨?_, ?_, ?_⟩
  · rw [C4_fill_until_full.1 2 _ (by decide)]
    decide
  · rw [C4_fill_until_full.2.1 2 _ (by decide)]
    decide
  · rw [C4_fill_until_full.2.2 2 _ (by decide)]
    decide

/-- C5: Single-threaded SPSC FIFO soundness: in any run from a fresh queue
in which every push and pop succeeds and the numbers of pushes and pops
agree, the popped messages are exactly the pushed (truncated) messages,
each exactly once, in push order — no loss, no duplication, no
reordering. -/
theorem C5_spsc_fifo (n : Nat) (ops : List SPSCBuf.Op) (sf : SPSCBuf.State)
    (outs : List (List Nat))
    (hrun : SPSCBuf.run (SPSCBuf.init n) ops = (sf, outs, true))
    (hbal : SPSCBuf.numPops ops = SPSCBuf.numPushes ops) :
    outs = SPSCBuf.pushedMsgs ops := by
  obtain ⟨hwf, habs⟩ := SPSCBuf.run_ok (SPSCBuf.spsc_init_WF n) hrun
  rw [SPSCBuf.init_absQ, List.nil_append] at habs
  have h1 : outs.length = SPSCBuf.numPops ops := by
    have hl := SPSCBuf.run_outs_length ops (SPSCBuf.init n)
    rw [hrun] at hl
    exact hl
  have h2 : (SPSCBuf.pushedMsgs ops).length = SPSCBuf.numPushes ops :=
    SPSCBuf.pushedMsgs_length ops
  have h3 : (SPSCBuf.absQ sf).length = 0 := by
    have hc := congrArg List.length habs
    rw [List.length_append] at hc
    omega
  have h4 : SPSCBuf.absQ sf = [] := List.eq_nil_of_length_eq_zero h3
  rw [h4, List.append_nil] at habs
  exact habs.symm

theorem C5_witness :
    (SPSCBuf.run (SPSCBuf.init 2)
      [SPSCBuf.Op.push (fun _ => 9) 1, SPSCBuf.Op.pop]).2.1 = [[9]] := by
  have h := C5_spsc_fifo 2 [SPSCBuf.Op.push (fun _ => 9) 1, SPSCBuf.Op.pop]
    _ _ rfl (by decide)
  exact h.trans (by rfl)

/-- C6: In every state of MPSCBuf/MPMCBuf reachable by sequentialized
operations the per-slot sequence fields satisfy the Vyukov invariant:
slots holding raw positions `head_ ≤ j < tail_` are full and ready for the
consumer (`seq = j + 1`), slots for the upcoming raw positions
`tail_ ≤ j < head_ + capacity` are empty and primed for the producer
claiming raw position `j` (`seq = j`); and a successful dequeue that drains
the slot claimed for raw index `head_` sets its sequence to
`head_ + capacity`. -/
theorem C6_vyukov_invariant :
    (∀ s : MPSCBuf.State, MPSCBuf.Reachable s →
      (∀ j, s.head_ ≤ j → j < s.tail_ → (s.buf_ (j % s.size_)).seq = j + 1) ∧
      (∀ j, s.tail_ ≤ j → j < s.head_ + s.size_ → (s.buf_ (j % s.size_)).seq = j) ∧
      (∀ L r s' out, MPSCBuf.dequeue s L = (r, s', out) → r ≠ -1 →
        (s'.buf_ (s.head_ % s.size_)).seq = s.head_ + s.size_)) ∧
    (∀ s : MPMCBuf.State, MPMCBuf.Reachable s →
      (∀ j, s.head_ ≤ j → j < s.tail_ → (s.buf_ (j % s.size_)).seq = j + 1) ∧
      (∀ j, s.tail_ ≤ j → j < s.head_ + s.size_ → (s.buf_ (j % s.size_)).seq = j) ∧
      (∀ L r s' out, MPMCBuf.dequeue s L = some (r, s', out) → r ≠ -1 →
        (s'.buf_ (s.head_ % s.size_)).seq = s.head_ + s.size_)) := by
  constructor
  · intro s hr
    obtain ⟨hw, hi⟩ := MPSCBuf.mpsc_reachable_wf_inv hr
    refine ⟨hi.2.2.1, hi.2.2.2.1, ?_⟩
    intro L r s' out heq hne
    by_cases he : MPSCBuf.isEmpty s
    · rw [MPSCBuf.mpsc_dequeue_empty hw hi he] at heq
      simp only [Prod.mk.injEq] at heq
      exact absurd heq.1.symm hne
    · rw [MPSCBuf.mpsc_dequeue_succ hw hi he] at heq
      simp only [Prod.mk.injEq] at heq
      rw [← heq.2.1]
      simp [updFn_same]
  · intro s hr
    obtain ⟨hw, hi⟩ := MPMCBuf.mpmc_reachable_wf_inv hr
    refine ⟨hi.2.2.1, hi.2.2.2.1, ?_⟩
    intro L r s' out heq hne
    by_cases he : MPMCBuf.isEmpty s
    · rw [MPMCBuf.mpmc_dequeue_empty hw hi he] at heq
      simp only [Option.some.injEq, Prod.mk.injEq] at heq
      exact absurd heq.1.symm hne
    · rw [MPMCBuf.mpmc_dequeue_succ hw hi he] at heq
      simp only [Option.some.injEq, Prod.mk.injEq] at heq
      rw [← heq.2.1]
      simp [updFn_same]

theorem C6_witness :
    ((MPSCBuf.init 2).buf_ (0 % (MPSCBuf.init 2).size_)).seq = 0 ∧
    ((MPMCBuf.init 2).buf_ (1 % (MPMCBuf.init 2).size_)).seq = 1 := by
  constructor
  · exact (C6_vyukov_invariant.1 (MPSCBuf.init 2) (MPSCBuf.Reachable.init 2)).2.1
      0 (by decide) (by decide)
  · exact (C6_vyukov_invariant.2 (MPMCBuf.init 2) (MPMCBuf.Reachable.init 2)).2.1
      1 (by decide) (by decide)

/-- C1: Uniform result convention: a push/enqueue on a full queue and a
pop/dequeue on an empty queue return the sentinel `-1` and leave the whole
state unchanged (no payload byte, length, sequence or cursor is touched,
and nothing is copied out); every other call returns the non-negative byte
count actually transferred (the truncated submitted length for a push, the
`min` of the caller buffer and the stored length for a pop). -/
theorem C1_sentinel_convention :
    (∀ (s : SPSCBuf.State) (d : Nat → Nat) (l L : Nat), SPSCBuf.WF s →
      (SPSCBuf.isFull s → SPSCBuf.push s d l = (-1, s)) ∧
      (¬ SPSCBuf.isFull s → (SPSCBuf.push s d l).1 = ((min l 65535 : Nat) : Int)) ∧
      (SPSCBuf.isEmpty s → SPSCBuf.pop s L = (-1, s, [])) ∧
      (¬ SPSCBuf.isEmpty s →
        (SPSCBuf.pop s L).1 = ((min L (s.buf_ s.tail_).len_ : Nat) : Int))) ∧
    (∀ (s : MPSCBuf.State) (d : Nat → Nat) (l L : Nat), MPSCBuf.Reachable s →
      (MPSCBuf.isFull s → MPSCBuf.enqueue s d l = some (-1, s)) ∧
      (¬ MPSCBuf.isFull s →
        ∃ s', MPSCBuf.enqueue s d l = some (((min l 65535 : Nat) : Int), s')) ∧
      (MPSCBuf.isEmpty s → MPSCBuf.dequeue s L = (-1, s, [])) ∧
      (¬ MPSCBuf.isEmpty s →
        (MPSCBuf.dequeue s L).1
          = ((min L ((s.buf_ (s.head_ % s.size_)).len_) : Nat) : Int))) ∧
    (∀ (s : MPMCBuf.State) (d : Nat → Nat) (l L : Nat), MPMCBuf.Reachable s →
      (MPMCBuf.isFull s → MPMCBuf.enqueue s d l = some (-1, s)) ∧
      (¬ MPMCBuf.isFull s →
        ∃ s', MPMCBuf.enqueue s d l = some (((min l 65535 : Nat) : Int), s')) ∧
      (MPMCBuf.isEmpty s → MPMCBuf.dequeue s L = some (-1, s, [])) ∧
      (¬ MPMCBuf.isEmpty s →
        ∃ s' out, MPMCBuf.dequeue s L
          = some (((min L ((s.buf_ (s.head_ % s.size_)).len_) : Nat) : Int), s', out))) := by
  refine ⟨?_, ?_, ?_⟩
  · intro s d l L hs
    refine ⟨fun hf => SPSCBuf.push_full hs hf d l, fun hf => ?_,
      fun he => SPSCBuf.pop_empty hs he L, fun he => ?_⟩
    · rw [SPSCBuf.push_succ hs hf d l]
    · rw [SPSCBuf.pop_succ hs he L]
  · intro s d l L hr
    obtain ⟨hw, hi⟩ := MPSCBuf.mpsc_reachable_wf_inv hr
    refine ⟨fun hf => MPSCBuf.mpsc_enqueue_full hw hi hf d l,
      fun hf => ⟨_, MPSCBuf.mpsc_enqueue_succ hw hi hf d l⟩,
      fun he => MPSCBuf.mpsc_dequeue_empty hw hi he L, fun he => ?_⟩
    rw [MPSCBuf.mpsc_dequeue_succ hw hi he L]
  · intro s d l L hr
    obtain ⟨hw, hi⟩ := MPMCBuf.mpmc_reachable_wf_inv hr
    refine ⟨fun hf => MPMCBuf.mpmc_enqueue_full hw hi hf d l,
      fun hf => ⟨_, MPMCBuf.mpmc_enqueue_succ hw hi hf d l⟩,
      fun he => MPMCBuf.mpmc_dequeue_empty hw hi he L,
      fun he => ⟨_, _, MPMCBuf.mpmc_dequeue_succ hw hi he L⟩⟩

theorem C1_witness :
    SPSCBuf.pop (SPSCBuf.init 2) 5 = (-1, SPSCBuf.init 2, []) ∧
    MPSCBuf.dequeue (MPSCBuf.init 2) 5 = (-1, MPSCBuf.init 2, []) ∧
    MPMCBuf.dequeue (MPMCBuf.init 2) 5 = some (-1, MPMCBuf.init 2, []) := by
  refine ⟨?_, ?_, ?_⟩
  · exact (C1_sentinel_convention.1 (SPSCBuf.init 2) (fun _ => 0) 0 5
      (SPSCBuf.spsc_init_WF 2)).2.2.1 (SPSCBuf.init_count 2)
  · exact (C1_sentinel_convention.2.1 (MPSCBuf.init 2) (fun _ => 0) 0 5
      (MPSCBuf.Reachable.init 2)).2.2.1 rfl
  · exact (C1_sentinel_convention.2.2 (MPMCBuf.init 2) (fun _ => 0) 0 5
      (MPMCBuf.Reachable.init 2)).2.2.1 rfl

namespace SPSCBuf

/-- Round trip on an empty queue: push then pop returns the truncated
message. -/
theorem spsc_roundtrip {s : State} (hs : WF s) (he : isEmpty s) (d : Nat → Nat)
    {l L : Nat} (hL : min l 65535 ≤ L) :
    (push s d l).1 = ((min l 65535 : Nat) : Int) ∧
    (pop (push s d l).2 L).1 = ((min l 65535 : Nat) : Int) ∧
    (pop (push s d l).2 L).2.2 = (List.range (min l 65535)).map d := by
  have h2 := hs.spsc_size_ge_two
  have hnf : ¬ isFull s := by
    unfold isFull
    unfold isEmpty at he
    omega
  have hpush := push_succ hs hnf d l
  have hs1 : WF (push s d l).2 := push_succ_WF hs hnf d l
  have he1 : ¬ isEmpty (push s d l).2 := by
    unfold isEmpty
    rw [push_succ_count hs hnf d l]
    omega
  have hte : s.tail_ = s.head_ := (empty_iff hs).mp he
  have htail : (push s d l).2.tail_ = s.tail_ := by rw [hpush]
  have hslot : (push s d l).2.buf_ ((push s d l).2.tail_)
      = { len_ := min l 65535 % 65536
          data_ := memcpyBytes (s.buf_ s.head_).data_ d (min l 65535) } := by
    rw [htail]
    simp only [hpush]
    rw [hte, updFn_same]
  have hlen : ((push s d l).2.buf_ ((push s d l).2.tail_)).len_ = min l 65535 := by
    rw [hslot]
    exact Nat.mod_eq_of_lt (by omega)
  have hdata : ((push s d l).2.buf_ ((push s d l).2.tail_)).data_
      = memcpyBytes (s.buf_ s.head_).data_ d (min l 65535) := by
    rw [hslot]
  have hpop := pop_succ hs1 he1 L
  refine ⟨by rw [hpush], ?_, ?_⟩
  · simp only [hpop]
    rw [hlen, Nat.min_eq_right hL]
  · simp only [hpop]
    rw [hlen, Nat.min_eq_right hL, hdata]
    apply List.map_congr_left
    intro i hi
    rw [List.mem_range] at hi
    simp [memcpyBytes, hi]

end SPSCBuf

namespace MPSCBuf

/-- Round trip on an empty queue: enqueue then dequeue returns the
truncated message. -/
theorem mpsc_roundtrip {s : State} (hw : WF s) (hi : Inv s) (he : isEmpty s)
    (d : Nat → Nat) {l L : Nat} (hL : min l 65535 ≤ L) :
    ∃ s', enqueue s d l = some (((min l 65535 : Nat) : Int), s') ∧
      (dequeue s' L).1 = ((min l 65535 : Nat) : Int) ∧
      (dequeue s' L).2.2 = (List.range (min l 65535)).map d := by
  have h2 := hw.mpsc_size_ge_two
  have hemp : s.tail_ = s.head_ := he
  have hnf : ¬ isFull s := by
    unfold isFull
    omega
  have henq := mpsc_enqueue_succ hw hi hnf d l
  set REC : State :=
    { s with
        tail_ := s.tail_ + 1
        buf_ := updFn s.buf_ (s.tail_ % s.size_)
          { seq := s.tail_ + 1
            len_ := min l 65535 % 65536
            data_ := memcpyBytes (s.buf_ (s.tail_ % s.size_)).data_ d
              (min l 65535) } } with hREC
  have hwR : WF REC := by
    rw [hREC]
    obtain ⟨k, hk, hsz⟩ := hw
    exact ⟨k, hk, hsz⟩
  have hiR : Inv REC := by
    rw [hREC]
    exact mpsc_enqueue_record_Inv hw hi hnf d l
  have hneR : ¬ isEmpty REC := by
    rw [hREC]
    intro hcon
    have : s.tail_ + 1 = s.head_ := hcon
    omega
  have hhR : REC.head_ = s.head_ := by rw [hREC]
  have hszR : REC.size_ = s.size_ := by rw [hREC]
  have hidx : REC.head_ % REC.size_ = s.tail_ % s.size_ := by
    rw [hhR, hszR, hemp]
  have hbufR : REC.buf_ (s.tail_ % s.size_)
      = { seq := s.tail_ + 1
          len_ := min l 65535 % 65536
          data_ := memcpyBytes (s.buf_ (s.tail_ % s.size_)).data_ d
            (min l 65535) } := by
    rw [hREC]
    exact updFn_same _ _ _
  have hlenR : (REC.buf_ (REC.head_ % REC.size_)).len_ = min l 65535 := by
    rw [hidx, hbufR]
    exact Nat.mod_eq_of_lt (by omega)
  have hdataR : (REC.buf_ (REC.head_ % REC.size_)).data_
      = memcpyBytes (s.buf_ (s.tail_ % s.size_)).data_ d (min l 65535) := by
    rw [hidx, hbufR]
  have hdeq := mpsc_dequeue_succ hwR hiR hneR L
  refine ⟨REC, henq, ?_, ?_⟩
  · simp only [hdeq]
    rw [hlenR, Nat.min_eq_right hL]
  · simp only [hdeq]
    rw [hlenR, Nat.min_eq_right hL, hdataR]
    apply List.map_congr_left
    intro i hi
    rw [List.mem_range] at hi
    simp [memcpyBytes, hi]

end MPSCBuf

namespace MPMCBuf

/-- Round trip on an empty queue: enqueue then dequeue returns the
truncated message. -/
theorem mpmc_roundtrip {s : State} (hw : WF s) (hi : Inv s) (he : isEmpty s)
    (d : Nat → Nat) {l L : Nat} (hL : min l 65535 ≤ L) :
    ∃ s', enqueue s d l = some (((min l 65535 : Nat) : Int), s') ∧
      ∃ s'', dequeue s' L
        = some (((min l 65535 : Nat) : Int), s'',
            (List.range (min l 65535)).map d) := by
  have h2 := hw.mpmc_size_ge_two
  have hemp : s.tail_ = s.head_ := he
  have hnf : ¬ isFull s := by
    unfold isFull
    omega
  have henq := mpmc_enqueue_succ hw hi hnf d l
  set REC : State :=
    { s with
        tail_ := s.tail_ + 1
        buf_ := updFn s.buf_ (s.tail_ % s.size_)
          { seq := s.tail_ + 1
            len_ := min l 65535 % 65536
            data_ := memcpyBytes (s.buf_ (s.tail_ % s.size_)).data_ d
              (min l 65535) } } with hREC
  have hwR : WF REC := by
    rw [hREC]
    obtain ⟨k, hk, hsz⟩ := hw
    exact ⟨k, hk, hsz⟩
  have hiR : Inv REC := by
    rw [hREC]
    exact mpmc_enqueue_record_Inv hw hi hnf d l
  have hneR : ¬ isEmpty REC := by
    rw [hREC]
    intro hcon
    have : s.tail_ + 1 = s.head_ := hcon
    omega
  have hhR : REC.head_ = s.head_ := by rw [hREC]
  have hszR : REC.size_ = s.size_ := by rw [hREC]
  have hidx : REC.head_ % REC.size_ = s.tail_ % s.size_ := by
    rw [hhR, hszR, hemp]
  have hbufR : REC.buf_ (s.tail_ % s.size_)
      = { seq := s.tail_ + 1
          len_ := min l 65535 % 65536
          data_ := memcpyBytes (s.buf_ (s.tail_ % s.size_)).data_ d
            (min l 65535) } := by
    rw [hREC]
    exact updFn_same _ _ _
  have hlenR : (REC.buf_ (REC.head_ % REC.size_)).len_ = min l 65535 := by
    rw [hidx, hbufR]
    exact Nat.mod_eq_of_lt (by omega)
  have hdataR : (REC.buf_ (REC.head_ % REC.size_)).data_
      = memcpyBytes (s.buf_ (s.tail_ % s.size_)).data_ d (min l 65535) := by
    rw [hidx, hbufR]
  have hdeq := mpmc_dequeue_succ hwR hiR hneR L
  rw [hlenR, Nat.min_eq_right hL, hdataR] at hdeq
  have hout : (List.range (min l 65535)).map
      (memcpyBytes (s.buf_ (s.tail_ % s.size_)).data_ d (min l 65535))
      = (List.range (min l 65535)).map d := by
    apply List.map_congr_left
    intro i hi
    rw [List.mem_range] at hi
    simp [memcpyBytes, hi]
  rw [hout] at hdeq
  exact ⟨REC, henq, _, hdeq⟩

end MPMCBuf

/-- C2 counterexample: the claim as stated quantifies over any *non-full*
queue, but a FIFO pop returns the oldest message, not the one just pushed.
On an SPSCBuf of capacity 4 already holding the byte `9`, a push of the
byte `7` (otherwise idle, queue non-full) returns `min 1 65535 = 1`, yet
the immediately following pop with caller length `1 ≥ min 1 65535` returns
`[9]`, not the first byte of the pushed message `[7]`. -/
theorem C2_counterexample :
    ¬ SPSCBuf.isFull (SPSCBuf.push (SPSCBuf.init 4) (fun _ => 9) 1).2 ∧
    (SPSCBuf.push (SPSCBuf.push (SPSCBuf.init 4) (fun _ => 9) 1).2
      (fun _ => 7) 1).1 = ((min 1 65535 : Nat) : Int) ∧
    (SPSCBuf.pop (SPSCBuf.push (SPSCBuf.push (SPSCBuf.init 4) (fun _ => 9) 1).2
      (fun _ => 7) 1).2 1).2.2 = [9] ∧
    (SPSCBuf.pop (SPSCBuf.push (SPSCBuf.push (SPSCBuf.init 4) (fun _ => 9) 1).2
      (fun _ => 7) 1).2 1).2.2
      ≠ (List.range (min 1 65535)).map (fun _ => (7:Nat)) := by
  refine ⟨?_, ?_, ?_, ?_⟩
  · unfold SPSCBuf.isFull SPSCBuf.count
    decide
  · decide
  · decide
  · decide

/-- C2 (amended: the queue must be *empty*, not merely non-full): on an
otherwise-idle empty queue of any of the three variants, `push`/`enqueue`
of `(data, len)` returns `min len 65535`, and an immediately following
`pop`/`dequeue` with caller length `≥ min len 65535` returns exactly
`min len 65535` bytes equal to the first `min len 65535` bytes of `data`;
oversized messages are truncated to 65535 bytes, and a zero-length message
round-trips with count 0. -/
theorem C2_roundtrip :
    (∀ (s : SPSCBuf.State) (d : Nat → Nat) (l L : Nat), SPSCBuf.WF s →
      SPSCBuf.isEmpty s → min l 65535 ≤ L →
      (SPSCBuf.push s d l).1 = ((min l 65535 : Nat) : Int) ∧
      (SPSCBuf.pop (SPSCBuf.push s d l).2 L).1 = ((min l 65535 : Nat) : Int) ∧
      (SPSCBuf.pop (SPSCBuf.push s d l).2 L).2.2
        = (List.range (min l 65535)).map d) ∧
    (∀ (s : MPSCBuf.State) (d : Nat → Nat) (l L : Nat), MPSCBuf.Reachable s →
      MPSCBuf.isEmpty s → min l 65535 ≤ L →
      ∃ s', MPSCBuf.enqueue s d l = some (((min l 65535 : Nat) : Int), s') ∧
        (MPSCBuf.dequeue s' L).1 = ((min l 65535 : Nat) : Int) ∧
        (MPSCBuf.dequeue s' L).2.2 = (List.range (min l 65535)).map d) ∧
    (∀ (s : MPMCBuf.State) (d : Nat → Nat) (l L : Nat), MPMCBuf.Reachable s →
      MPMCBuf.isEmpty s → min l 65535 ≤ L →
      ∃ s', MPMCBuf.enqueue s d l = some (((min l 65535 : Nat) : Int), s') ∧
        ∃ s'', MPMCBuf.dequeue s' L
          = some (((min l 65535 : Nat) : Int), s'',
              (List.range (min l 65535)).map d)) := by
  refine ⟨?_, ?_, ?_⟩
  · intro s d l L hs he hL
    exact SPSCBuf.spsc_roundtrip hs he d hL
  · intro s d l L hr he hL
    obtain ⟨hw, hi⟩ := MPSCBuf.mpsc_reachable_wf_inv hr
    exact MPSCBuf.mpsc_roundtrip hw hi he d hL
  · intro s d l L hr he hL
    obtain ⟨hw, hi⟩ := MPMCBuf.mpmc_reachable_wf_inv hr
    exact MPMCBuf.mpmc_roundtrip hw hi he d hL

theorem C2_witness :
    (SPSCBuf.pop (SPSCBuf.push (SPSCBuf.init 2) (fun _ => 5) 1).2 1).2.2
      = (List.range (min 1 65535)).map (fun _ => (5:Nat)) ∧
    (SPSCBuf.push (SPSCBuf.init 2) (fun _ => 5) 1).1 = ((min 1 65535 : Nat) : Int) := by
  have h := C2_roundtrip.1 (SPSCBuf.init 2) (fun _ => 5) 1 1
    (SPSCBuf.spsc_init_WF 2) (SPSCBuf.init_count 2) (by decide)
  exact ⟨h.2.2, h.1⟩

/-- C7 counterexample: in SPSCBuf the cursors are *not* unmasked monotonic
counters with the producer on `tail`: on a fresh SPSCBuf of capacity 2 a
successful push (return value 1) leaves `tail_` unchanged and advances
`head_` instead, and after a pop and another successful push `head_` is
back to 0 (it is stored masked and wraps), so it is not monotonically
increasing. -/
theorem C7_counterexample :
    (SPSCBuf.push (SPSCBuf.init 2) (fun _ => 3) 1).1 = 1 ∧
    (SPSCBuf.push (SPSCBuf.init 2) (fun _ => 3) 1).2.tail_
      = (SPSCBuf.init 2).tail_ ∧
    (SPSCBuf.push (SPSCBuf.init 2) (fun _ => 3) 1).2.head_ = 1 ∧
    (SPSCBuf.push
      (SPSCBuf.pop (SPSCBuf.push (SPSCBuf.init 2) (fun _ => 3) 1).2 0).2.1
      (fun _ => 3) 1).2.head_ = 0 := by
  refine ⟨?_, ?_, ?_, ?_⟩ <;> decide

/-- C7 (amended): in MPSCBuf and MPMCBuf the cursors are monotonically
increasing unmasked counters — a successful enqueue advances `tail_` by
exactly 1 and leaves `head_`, a successful dequeue advances `head_` by
exactly 1 and leaves `tail_`, and a failed call changes nothing, with only
the masked form `cursor &&& (size_ - 1)` used to index the slot array.  In
SPSCBuf the roles and representation differ: the producer advances `head_`
and the consumer advances `tail_`, and each cursor is stored already
masked (`(cursor + 1) &&& (size_ - 1)`, always `< size_`). -/
theorem C7_cursor_discipline :
    (∀ (s : MPSCBuf.State) (d : Nat → Nat) (l : Nat) (r : Int) s',
      MPSCBuf.Reachable s → MPSCBuf.enqueue s d l = some (r, s') →
      (r ≠ -1 → s'.tail_ = s.tail_ + 1 ∧ s'.head_ = s.head_) ∧
      (r = -1 → s' = s)) ∧
    (∀ (s : MPSCBuf.State) (L : Nat) (r : Int) s' out,
      MPSCBuf.Reachable s → MPSCBuf.dequeue s L = (r, s', out) →
      (r ≠ -1 → s'.head_ = s.head_ + 1 ∧ s'.tail_ = s.tail_) ∧
      (r = -1 → s' = s)) ∧
    (∀ (s : MPMCBuf.State) (d : Nat → Nat) (l : Nat) (r : Int) s',
      MPMCBuf.Reachable s → MPMCBuf.enqueue s d l = some (r, s') →
      (r ≠ -1 → s'.tail_ = s.tail_ + 1 ∧ s'.head_ = s.head_) ∧
      (r = -1 → s' = s)) ∧
    (∀ (s : MPMCBuf.State) (L : Nat) (r : Int) s' out,
      MPMCBuf.Reachable s → MPMCBuf.dequeue s L = some (r, s', out) →
      (r ≠ -1 → s'.head_ = s.head_ + 1 ∧ s'.tail_ = s.tail_) ∧
      (r = -1 → s' = s)) ∧
    (∀ (s : SPSCBuf.State) (d : Nat → Nat) (l : Nat),
      SPSCBuf.WF s → ¬ SPSCBuf.isFull s →
      (SPSCBuf.push s d l).2.head_ = (s.head_ + 1) &&& (s.size_ - 1) ∧
      (SPSCBuf.push s d l).2.tail_ = s.tail_ ∧
      (SPSCBuf.push s d l).2.head_ < s.size_) ∧
    (∀ (s : SPSCBuf.State) (L : Nat),
      SPSCBuf.WF s → ¬ SPSCBuf.isEmpty s →
      (SPSCBuf.pop s L).2.1.tail_ = (s.tail_ + 1) &&& (s.size_ - 1) ∧
      (SPSCBuf.pop s L).2.1.head_ = s.head_ ∧
      (SPSCBuf.pop s L).2.1.tail_ < s.size_) := by
  refine ⟨?_, ?_, ?_, ?_, ?_, ?_⟩
  · intro s d l r s' hr heq
    obtain ⟨hw, hi⟩ := MPSCBuf.mpsc_reachable_wf_inv hr
    by_cases hf : MPSCBuf.isFull s
    · rw [MPSCBuf.mpsc_enqueue_full hw hi hf] at heq
      simp only [Option.some.injEq, Prod.mk.injEq] at heq
      exact ⟨fun hne => absurd heq.1.symm hne, fun _ => heq.2.symm⟩
    · rw [MPSCBuf.mpsc_enqueue_succ hw hi hf] at heq
      simp only [Option.some.injEq, Prod.mk.injEq] at heq
      refine ⟨fun _ => ?_, fun hcon => ?_⟩
      · rw [← heq.2]
        exact ⟨rfl, rfl⟩
      · exfalso
        rw [← heq.1] at hcon
        simp at hcon
        omega
  · intro s L r s' out hr heq
    obtain ⟨hw, hi⟩ := MPSCBuf.mpsc_reachable_wf_inv hr
    by_cases he : MPSCBuf.isEmpty s
    · rw [MPSCBuf.mpsc_dequeue_empty hw hi he] at heq
      simp only [Prod.mk.injEq] at heq
      exact ⟨fun hne => absurd heq.1.symm hne, fun _ => heq.2.1.symm⟩
    · rw [MPSCBuf.mpsc_dequeue_succ hw hi he] at heq
      simp only [Prod.mk.injEq] at heq
      refine ⟨fun _ => ?_, fun hcon => ?_⟩
      · rw [← heq.2.1]
        exact ⟨rfl, rfl⟩
      · exfalso
        rw [← heq.1] at hcon
        simp at hcon
        omega
  · intro s d l r s' hr heq
    obtain ⟨hw, hi⟩ := MPMCBuf.mpmc_reachable_wf_inv hr
    by_cases hf : MPMCBuf.isFull s
    · rw [MPMCBuf.mpmc_enqueue_full hw hi hf] at heq
      simp only [Option.some.injEq, Prod.mk.injEq] at heq
      exact ⟨fun hne => absurd heq.1.symm hne, fun _ => heq.2.symm⟩
    · rw [MPMCBuf.mpmc_enqueue_succ hw hi hf] at heq
      simp only [Option.some.injEq, Prod.mk.injEq] at heq
      refine ⟨fun _ => ?_, fun hcon => ?_⟩
      · rw [← heq.2]
        exact ⟨rfl, rfl⟩
      · exfalso
        rw [← heq.1] at hcon
        simp at hcon
        omega
  · intro s L r s' out hr heq
    obtain ⟨hw, hi⟩ := MPMCBuf.mpmc_reachable_wf_inv hr
    by_cases he : MPMCBuf.isEmpty s
    · rw [MPMCBuf.mpmc_dequeue_empty hw hi he] at heq
      simp only [Option.some.injEq, Prod.mk.injEq] at heq
      exact ⟨fun hne => absurd heq.1.symm hne, fun _ => heq.2.1.symm⟩
    · rw [MPMCBuf.mpmc_dequeue_succ hw hi he] at heq
      simp only [Option.some.injEq, Prod.mk.injEq] at heq
      refine ⟨fun _ => ?_, fun hcon => ?_⟩
      · rw [← heq.2.1]
        exact ⟨rfl, rfl⟩
      · exfalso
        rw [← heq.1] at hcon
        simp at hcon
        omega
  · intro s d l hs hf
    have hsp := hs.spsc_size_pos
    refine ⟨?_, ?_, ?_⟩
    · simp only [SPSCBuf.push_succ hs hf d l]
      rw [hs.spsc_mask_eq_mod]
    · simp only [SPSCBuf.push_succ hs hf d l]
    · simp only [SPSCBuf.push_succ hs hf d l]
      exact Nat.mod_lt _ hsp
  · intro s L hs he
    have hsp := hs.spsc_size_pos
    refine ⟨?_, ?_, ?_⟩
    · simp only [SPSCBuf.pop_succ hs he L]
      rw [hs.spsc_mask_eq_mod]
    · simp only [SPSCBuf.pop_succ hs he L]
    · simp only [SPSCBuf.pop_succ hs he L]
      exact Nat.mod_lt _ hsp

theorem C7_witness :
    ((MPSCBuf.enqueue (MPSCBuf.init 2) (fun _ => 4) 1).getD
        (-1, MPSCBuf.init 2)).2.tail_ = (MPSCBuf.init 2).tail_ + 1 := by
  have h := (C7_cursor_discipline.1 (MPSCBuf.init 2) (fun _ => 4) 1
      ((MPSCBuf.enqueue (MPSCBuf.init 2) (fun _ => 4) 1).getD
        (-1, MPSCBuf.init 2)).1
      ((MPSCBuf.enqueue (MPSCBuf.init 2) (fun _ => 4) 1).getD
        (-1, MPSCBuf.init 2)).2
      (MPSCBuf.Reachable.init 2) rfl).1 (by decide)
  exact h.1

/-- C8 counterexample: the claimed transient window does not exist in this
implementation.  Phase 1 of `lock()` is the CAS `state_: 0 → WRITER_BIT`,
which succeeds only when the *whole* word — including the reader count —
is zero, so no reachable state of the lock protocol has the writer bit set
while pre-existing readers are still draining. -/
theorem C8_counterexample :
    ¬ ∃ s : RWSpinLock.LockState, RWSpinLock.Reachable s ∧
        RWSpinLock.writerFlag (RWSpinLock.word s) ∧
        0 < RWSpinLock.readerCount (RWSpinLock.word s) := by
  rintro ⟨s, hr, hwf, hrc⟩
  obtain ⟨h1, h2⟩ := RWSpinLock.reachable_LockInv hr
  have hw : s.writer = true := (RWSpinLock.writerFlag_word h2).mp hwf
  have hr0 : s.readers = 0 := h1 hw
  rw [RWSpinLock.readerCount_word h2, hr0] at hrc
  exact absurd hrc (by omega)

/-- C8 (amended): in the RWSpinLock state machine (steps `lock_shared`,
`unlock_shared`, the two phases of `lock`, and `unlock`, from state 0) the
writer flag and a non-zero reader count are mutually exclusive in *every*
reachable state — there is no transient drain window, because phase 1 of
`lock()` CASes the entire word from 0 — and `lock()` treats the exclusive
section as entered only when it observes `state_ == WRITER_BIT`, which
implies the reader count is zero. -/
theorem C8_rw_mutual_exclusion :
    (∀ s : RWSpinLock.LockState, RWSpinLock.Reachable s →
      ¬ (s.writer = true ∧ 0 < s.readers)) ∧
    (∀ s : RWSpinLock.LockState, RWSpinLock.Reachable s →
      RWSpinLock.drainDone (RWSpinLock.word s) →
      RWSpinLock.readerCount (RWSpinLock.word s) = 0 ∧ s.readers = 0) ∧
    (∀ w : Nat, RWSpinLock.drainDone w → RWSpinLock.readerCount w = 0) := by
  refine ⟨?_, ?_, ?_⟩
  · rintro s hr ⟨hw, hpos⟩
    obtain ⟨h1, h2⟩ := RWSpinLock.reachable_LockInv hr
    have := h1 hw
    omega
  · intro s hr hd
    obtain ⟨h1, h2⟩ := RWSpinLock.reachable_LockInv hr
    have hrc : RWSpinLock.readerCount (RWSpinLock.word s) = s.readers :=
      RWSpinLock.readerCount_word h2
    have hr0 : s.readers = 0 := by
      by_cases hsw : s.writer = true
      · exact h1 hsw
      · have hswf : s.writer = false := by
          cases hcs : s.writer
          · rfl
          · exact absurd hcs hsw
        have := RWSpinLock.word_reader hswf
        unfold RWSpinLock.drainDone at hd
        rw [this] at hd
        unfold RWSpinLock.WRITER_BIT at hd
        omega
    exact ⟨by rw [hrc, hr0], hr0⟩
  · intro w hd
    unfold RWSpinLock.drainDone at hd
    subst hd
    unfold RWSpinLock.readerCount RWSpinLock.WRITER_BIT
    rw [and_mask_eq_mod, Nat.mod_self]

theorem C8_witness :
    ¬ (({ readers := 0, writer := true } : RWSpinLock.LockState).writer = true ∧
        0 < ({ readers := 0, writer := true } : RWSpinLock.LockState).readers) := by
  have hreach : RWSpinLock.Reachable { readers := 0, writer := true } :=
    RWSpinLock.Reachable.step RWSpinLock.Reachable.init
      (RWSpinLock.Step.lock_acquire (by rfl))
  exact C8_rw_mutual_exclusion.1 _ hreach

/-- C9: `MPMCBuf::enqueue` implements the identical algorithm to
`MPSCBuf::enqueue`: along the field-for-field state correspondence
`MPSCBuf.State.toMPMC` (an isomorphism between the two structurally
identical ring-buffer states, with inverse `MPMCBuf.State.toMPSC`), the
two sequentialized enqueue state-transformers are extensionally equal —
for every state, data pointer and length they make the same slot claim,
perform the same writes and return the same result. -/
theorem C9_enqueue_equivalent :
    (∀ (s : MPSCBuf.State) (data : Nat → Nat) (len : Nat),
      MPMCBuf.enqueue (MPSCBuf.State.toMPMC s) data len
        = (MPSCBuf.enqueue s data len).map
            (fun p => (p.1, MPSCBuf.State.toMPMC p.2))) ∧
    (∀ s : MPSCBuf.State, MPMCBuf.State.toMPSC (MPSCBuf.State.toMPMC s) = s) ∧
    (∀ t : MPMCBuf.State, MPSCBuf.State.toMPMC (MPMCBuf.State.toMPSC t) = t) := by
  refine ⟨?_, ?_, ?_⟩
  · intro s data len
    simp only [MPMCBuf.enqueue, MPSCBuf.enqueue, MPSCBuf.State.toMPMC,
      MPSCBuf.Node.toMPMC, MPSCBuf.mpsc_trunc_eq_min]
    split_ifs with h1 h2
    · simp only [Option.map_some', Option.some.injEq, Prod.mk.injEq,
        MPMCBuf.State.mk.injEq, eq_self_iff_true, true_and, and_true]
      funext i
      simp only [updFn]
      split_ifs with hi
      · rfl
      · rfl
    · rfl
    · rfl
  · intro s
    show MPSCBuf.State.mk _ _ _ _ = s
    cases s with
    | mk sz b h t =>
        simp only [MPSCBuf.State.toMPMC, MPMCBuf.State.toMPSC,
          MPSCBuf.Node.toMPMC, MPMCBuf.Node.toMPSC]
  · intro t
    show MPMCBuf.State.mk _ _ _ _ = t
    cases t with
    | mk sz b h t =>
        simp only [MPSCBuf.State.toMPMC, MPMCBuf.State.toMPSC,
          MPSCBuf.Node.toMPMC, MPMCBuf.Node.toMPSC]

/-- C10 counterexample: the claim says a successful push/enqueue "advances
only the tail cursor", but in SPSCBuf the *producer* cursor is `head_`: on
a fresh SPSCBuf of capacity 4 a successful push (return value 2) leaves
`tail_` unchanged and modifies `head_`. -/
theorem C10_counterexample :
    (SPSCBuf.push (SPSCBuf.init 4) (fun _ => 8) 2).1 = 2 ∧
    (SPSCBuf.push (SPSCBuf.init 4) (fun _ => 8) 2).2.tail_
      = (SPSCBuf.init 4).tail_ ∧
    (SPSCBuf.push (SPSCBuf.init 4) (fun _ => 8) 2).2.head_
      ≠ (SPSCBuf.init 4).head_ := by
  refine ⟨?_, ?_, ?_⟩ <;> decide

/-- C10 (amended: the cursor owned by a successful operation is the tail
for MPSC/MPMC enqueue and the head for their dequeue, while in SPSCBuf the
producer owns `head_` and the consumer owns `tail_`): every successful
operation modifies at most its claimed slot and its own cursor — a
successful push/enqueue writes only the claimed slot's payload prefix of
the truncated length, its length field and (for MPSC/MPMC) its sequence
field, and advances only its own cursor; a successful pop/dequeue advances
only its own cursor and (for MPSC/MPMC) rewrites only the claimed slot's
sequence field; the capacity, all other slots, and the counterpart cursor
are unchanged. -/
theorem C10_frame :
    (∀ (s : SPSCBuf.State) (d : Nat → Nat) (l : Nat),
      SPSCBuf.WF s → ¬ SPSCBuf.isFull s →
      (SPSCBuf.push s d l).2.size_ = s.size_ ∧
      (SPSCBuf.push s d l).2.tail_ = s.tail_ ∧
      (∀ i, i ≠ s.head_ → (SPSCBuf.push s d l).2.buf_ i = s.buf_ i) ∧
      ((SPSCBuf.push s d l).2.buf_ s.head_).len_ = min l 65535 % 65536 ∧
      (∀ j, j < min l 65535 →
        ((SPSCBuf.push s d l).2.buf_ s.head_).data_ j = d j) ∧
      (∀ j, min l 65535 ≤ j →
        ((SPSCBuf.push s d l).2.buf_ s.head_).data_ j = (s.buf_ s.head_).data_ j)) ∧
    (∀ (s : SPSCBuf.State) (L : Nat),
      SPSCBuf.WF s → ¬ SPSCBuf.isEmpty s →
      (SPSCBuf.pop s L).2.1.size_ = s.size_ ∧
      (SPSCBuf.pop s L).2.1.head_ = s.head_ ∧
      (∀ i, (SPSCBuf.pop s L).2.1.buf_ i = s.buf_ i)) ∧
    (∀ (s : MPSCBuf.State) (d : Nat → Nat) (l : Nat),
      MPSCBuf.Reachable s → ¬ MPSCBuf.isFull s →
      (MPSCBuf.enqSt s d l).size_ = s.size_ ∧
      (MPSCBuf.enqSt s d l).head_ = s.head_ ∧
      (MPSCBuf.enqSt s d l).tail_ = s.tail_ + 1 ∧
      (∀ i, i ≠ s.tail_ % s.size_ → (MPSCBuf.enqSt s d l).buf_ i = s.buf_ i) ∧
      ((MPSCBuf.enqSt s d l).buf_ (s.tail_ % s.size_)).seq = s.tail_ + 1 ∧
      ((MPSCBuf.enqSt s d l).buf_ (s.tail_ % s.size_)).len_ = min l 65535 % 65536 ∧
      (∀ j, j < min l 65535 →
        ((MPSCBuf.enqSt s d l).buf_ (s.tail_ % s.size_)).data_ j = d j) ∧
      (∀ j, min l 65535 ≤ j →
        ((MPSCBuf.enqSt s d l).buf_ (s.tail_ % s.size_)).data_ j
          = (s.buf_ (s.tail_ % s.size_)).data_ j)) ∧
    (∀ (s : MPSCBuf.State) (L : Nat),
      MPSCBuf.Reachable s → ¬ MPSCBuf.isEmpty s →
      (MPSCBuf.dequeue s L).2.1.size_ = s.size_ ∧
      (MPSCBuf.dequeue s L).2.1.tail_ = s.tail_ ∧
      (MPSCBuf.dequeue s L).2.1.head_ = s.head_ + 1 ∧
      (∀ i, i ≠ s.head_ % s.size_ → (MPSCBuf.dequeue s L).2.1.buf_ i = s.buf_ i) ∧
      ((MPSCBuf.dequeue s L).2.1.buf_ (s.head_ % s.size_)).seq = s.head_ + s.size_ ∧
      ((MPSCBuf.dequeue s L).2.1.buf_ (s.head_ % s.size_)).len_
        = (s.buf_ (s.head_ % s.size_)).len_ ∧
      ((MPSCBuf.dequeue s L).2.1.buf_ (s.head_ % s.size_)).data_
        = (s.buf_ (s.head_ % s.size_)).data_) ∧
    (∀ (s : MPMCBuf.State) (d : Nat → Nat) (l : Nat),
      MPMCBuf.Reachable s → ¬ MPMCBuf.isFull s →
      (MPMCBuf.enqSt s d l).size_ = s.size_ ∧
      (MPMCBuf.enqSt s d l).head_ = s.head_ ∧
      (MPMCBuf.enqSt s d l).tail_ = s.tail_ + 1 ∧
      (∀ i, i ≠ s.tail_ % s.size_ → (MPMCBuf.enqSt s d l).buf_ i = s.buf_ i) ∧
      ((MPMCBuf.enqSt s d l).buf_ (s.tail_ % s.size_)).seq = s.tail_ + 1 ∧
      ((MPMCBuf.enqSt s d l).buf_ (s.tail_ % s.size_)).len_ = min l 65535 % 65536 ∧
      (∀ j, j < min l 65535 →
        ((MPMCBuf.enqSt s d l).buf_ (s.tail_ % s.size_)).data_ j = d j) ∧
      (∀ j, min l 65535 ≤ j →
        ((MPMCBuf.enqSt s d l).buf_ (s.tail_ % s.size_)).data_ j
          = (s.buf_ (s.tail_ % s.size_)).data_ j)) ∧
    (∀ (s : MPMCBuf.State) (L : Nat),
      MPMCBuf.Reachable s → ¬ MPMCBuf.isEmpty s →
      (MPMCBuf.deqSt s L).size_ = s.size_ ∧
      (MPMCBuf.deqSt s L).tail_ = s.tail_ ∧
      (MPMCBuf.deqSt s L).head_ = s.head_ + 1 ∧
      (∀ i, i ≠ s.head_ % s.size_ → (MPMCBuf.deqSt s L).buf_ i = s.buf_ i) ∧
      ((MPMCBuf.deqSt s L).buf_ (s.head_ % s.size_)).seq = s.head_ + s.size_ ∧
      ((MPMCBuf.deqSt s L).buf_ (s.head_ % s.size_)).len_
        = (s.buf_ (s.head_ % s.size_)).len_ ∧
      ((MPMCBuf.deqSt s L).buf_ (s.head_ % s.size_)).data_
        = (s.buf_ (s.head_ % s.size_)).data_) := by
  refine ⟨?_, ?_, ?_, ?_, ?_, ?_⟩
  · intro s d l hs hf
    refine ⟨?_, ?_, ?_, ?_, ?_, ?_⟩
    · simp only [SPSCBuf.push_succ hs hf d l]
    · simp only [SPSCBuf.push_succ hs hf d l]
    · intro i hi
      simp only [SPSCBuf.push_succ hs hf d l]
      exact updFn_other _ _ _ _ hi
    · simp only [SPSCBuf.push_succ hs hf d l, updFn_same]
    · intro j hj
      simp only [SPSCBuf.push_succ hs hf d l, updFn_same]
      show memcpyBytes (s.buf_ s.head_).data_ d (min l 65535) j = d j
      unfold memcpyBytes
      rw [if_pos hj]
    · intro j hj
      simp only [SPSCBuf.push_succ hs hf d l, updFn_same]
      show memcpyBytes (s.buf_ s.head_).data_ d (min l 65535) j = _
      unfold memcpyBytes
      rw [if_neg (by omega)]
  · intro s L hs he
    refine ⟨?_, ?_, fun i => ?_⟩ <;> simp only [SPSCBuf.pop_succ hs he L]
  · intro s d l hr hf
    obtain ⟨hw, hi⟩ := MPSCBuf.mpsc_reachable_wf_inv hr
    have hst : MPSCBuf.enqSt s d l
        = { s with
              tail_ := s.tail_ + 1
              buf_ := updFn s.buf_ (s.tail_ % s.size_)
                { seq := s.tail_ + 1
                  len_ := min l 65535 % 65536
                  data_ := memcpyBytes (s.buf_ (s.tail_ % s.size_)).data_ d
                    (min l 65535) } } := by
      unfold MPSCBuf.enqSt
      rw [MPSCBuf.mpsc_enqueue_succ hw hi hf d l]
      rfl
    refine ⟨?_, ?_, ?_, ?_, ?_, ?_, ?_, ?_⟩
    · simp only [hst]
    · simp only [hst]
    · simp only [hst]
    · intro i hix
      simp only [hst]
      exact updFn_other _ _ _ _ hix
    · simp only [hst, updFn_same]
    · simp only [hst, updFn_same]
    · intro j hj
      simp only [hst, updFn_same]
      show memcpyBytes (s.buf_ (s.tail_ % s.size_)).data_ d (min l 65535) j = d j
      unfold memcpyBytes
      rw [if_pos hj]
    · intro j hj
      simp only [hst, updFn_same]
      show memcpyBytes (s.buf_ (s.tail_ % s.size_)).data_ d (min l 65535) j = _
      unfold memcpyBytes
      rw [if_neg (by omega)]
  · intro s L hr he
    obtain ⟨hw, hi⟩ := MPSCBuf.mpsc_reachable_wf_inv hr
    refine ⟨?_, ?_, ?_, ?_, ?_, ?_, ?_⟩
    · simp only [MPSCBuf.mpsc_dequeue_succ hw hi he L]
    · simp only [MPSCBuf.mpsc_dequeue_succ hw hi he L]
    · simp only [MPSCBuf.mpsc_dequeue_succ hw hi he L]
    · intro i hix
      simp only [MPSCBuf.mpsc_dequeue_succ hw hi he L]
      exact updFn_other _ _ _ _ hix
    · simp only [MPSCBuf.mpsc_dequeue_succ hw hi he L, updFn_same]
    · simp only [MPSCBuf.mpsc_dequeue_succ hw hi he L, updFn_same]
    · simp only [MPSCBuf.mpsc_dequeue_succ hw hi he L, updFn_same]
  · intro s d l hr hf
    obtain ⟨hw, hi⟩ := MPMCBuf.mpmc_reachable_wf_inv hr
    have hst : MPMCBuf.enqSt s d l
        = { s with
              tail_ := s.tail_ + 1
              buf_ := updFn s.buf_ (s.tail_ % s.size_)
                { seq := s.tail_ + 1
                  len_ := min l 65535 % 65536
                  data_ := memcpyBytes (s.buf_ (s.tail_ % s.size_)).data_ d
                    (min l 65535) } } := by
      unfold MPMCBuf.enqSt
      rw [MPMCBuf.mpmc_enqueue_succ hw hi hf d l]
      rfl
    refine ⟨?_, ?_, ?_, ?_, ?_, ?_, ?_, ?_⟩
    · simp only [hst]
    · simp only [hst]
    · simp only [hst]
    · intro i hix
      simp only [hst]
      exact updFn_other _ _ _ _ hix
    · simp only [hst, updFn_same]
    · simp only [hst, updFn_same]
    · intro j hj
      simp only [hst, updFn_same]
      show memcpyBytes (s.buf_ (s.tail_ % s.size_)).data_ d (min l 65535) j = d j
      unfold memcpyBytes
      rw [if_pos hj]
    · intro j hj
      simp only [hst, updFn_same]
      show memcpyBytes (s.buf_ (s.tail_ % s.size_)).data_ d (min l 65535) j = _
      unfold memcpyBytes
      rw [if_neg (by omega)]
  · intro s L hr he
    obtain ⟨hw, hi⟩ := MPMCBuf.mpmc_reachable_wf_inv hr
    have hst : MPMCBuf.deqSt s L
        = { s with
              head_ := s.head_ + 1
              buf_ := updFn s.buf_ (s.head_ % s.size_)
                { s.buf_ (s.head_ % s.size_) with seq := s.head_ + s.size_ } } := by
      unfold MPMCBuf.deqSt
      rw [MPMCBuf.mpmc_dequeue_succ hw hi he L]
      rfl
    refine ⟨?_, ?_, ?_, ?_, ?_, ?_, ?_⟩
    · simp only [hst]
    · simp only [hst]
    · simp only [hst]
    · intro i hix
      simp only [hst]
      exact updFn_other _ _ _ _ hix
    · simp only [hst, updFn_same]
    · simp only [hst, updFn_same]
    · simp only [hst, updFn_same]

theorem C10_witness :
    ((SPSCBuf.push (SPSCBuf.init 2) (fun _ => 6) 1).2.buf_ 1).len_
      = ((SPSCBuf.init 2).buf_ 1).len_ ∧
    (SPSCBuf.push (SPSCBuf.init 2) (fun _ => 6) 1).2.tail_
      = (SPSCBuf.init 2).tail_ := by
  have h := C10_frame.1 (SPSCBuf.init 2) (fun _ => 6) 1 (SPSCBuf.spsc_init_WF 2)
    (by unfold SPSCBuf.isFull SPSCBuf.count; decide)
  exact ⟨congrArg SPSCBuf.Slot.len_ (h.2.2.1 1 (by decide)), h.2.1⟩
